import Mathlib

/-!
# Position and gain/loss accounting engine of mently-tracker

A shallow embedding of the accounting core of the `mently-tracker`
repository:

* `convertAmount`   — `src/contexts/CurrencyContext.tsx` (convertAmount)
* `netPositions`    — `src/components/AssetList.tsx` (netPositions memo);
  the position fold in `src/components/PortfolioMetrics.tsx` performs the
  same updates on the fields it reads, so it is shared.
* `calculateGainLoss` — `src/components/AssetList.tsx` (calculateGainLoss)
* `metrics`         — `src/components/PortfolioMetrics.tsx` (metrics memo)
* `saveAsset`       — `src/utils/db.ts` (saveAsset)

JavaScript numbers are modelled as rationals (`ℚ`), dates as natural
numbers (millisecond timestamps), and the exchange-rate table as a total
function `Currency → ℚ`.  JavaScript `Map` objects are modelled as
association lists with insertion-order semantics (`mapGet` / `mapSet`).
-/

namespace Mently

/-- Currency codes, from `src/types/asset.ts` (`type Currency = 'USD' | 'MYR'`). -/
inductive Currency where
  | USD
  | MYR
deriving DecidableEq, Repr

/-- Transaction types handled by the accounting components
(`'BUY' | 'SELL' | 'EARN'`). -/
inductive TransactionType where
  | BUY
  | SELL
  | EARN
deriving DecidableEq, Repr

/-- A transaction record, from `src/types/asset.ts` (`interface Asset`).
`purchasePrice` is the total transaction price, not a per-unit price. -/
structure Asset where
  id : String
  symbol : String
  name : String
  purchaseQuantity : ℚ
  purchasePrice : ℚ
  purchaseCurrency : Currency
  purchaseDate : ℕ
  currentPrice : ℚ
  currentPriceCurrency : Currency
  createdAt : ℕ
  transactionType : TransactionType
deriving DecidableEq, Repr

/-- `convertAmount` from `src/contexts/CurrencyContext.tsx`: identity when the
currencies coincide, otherwise divide by the source rate (to USD) and multiply
by the target rate. -/
def convertAmount (rates : Currency → ℚ) (amount : ℚ)
    (fromCurrency toCurrency : Currency) : ℚ :=
  if fromCurrency = toCurrency then amount
  else amount / rates fromCurrency * rates toCurrency

/-- A per-symbol position, from the `netPositions` memo in
`src/components/AssetList.tsx`. -/
structure Position where
  symbol : String
  name : String
  netQuantity : ℚ
  totalBuyValue : ℚ
  totalBuyCurrency : Currency
  currentPrice : ℚ
  currentPriceCurrency : Currency
  lastPurchaseDate : ℕ
deriving DecidableEq, Repr

/-- A JavaScript `Map<string, Position>` as an insertion-ordered association
list. -/
abbrev PosMap := List (String × Position)

/-- `Map.get`: the value stored at `k`, if any. -/
def mapGet (k : String) : PosMap → Option Position
  | [] => none
  | (k', p) :: rest => if k' = k then some p else mapGet k rest

/-- `Map.set`: replace in place if the key is present (JavaScript `Map`
preserves the original insertion position), otherwise append at the end. -/
def mapSet (k : String) (v : Position) : PosMap → PosMap
  | [] => [(k, v)]
  | (k', p) :: rest => if k' = k then (k', v) :: rest else (k', p) :: mapSet k v rest

/-- The signed quantity contributed by one transaction:
`SELL ? -q : (BUY || EARN) ? q : 0`. -/
def quantityChange (a : Asset) : ℚ :=
  match a.transactionType with
  | .SELL => -a.purchaseQuantity
  | .BUY => a.purchaseQuantity
  | .EARN => a.purchaseQuantity

/-- The fresh position created the first time a symbol is seen: zero totals,
and the price/currency/date fields of that first transaction. -/
def initPosition (a : Asset) : Position :=
  { symbol := a.symbol
    name := a.name
    netQuantity := 0
    totalBuyValue := 0
    totalBuyCurrency := a.purchaseCurrency
    currentPrice := a.currentPrice
    currentPriceCurrency := a.currentPriceCurrency
    lastPurchaseDate := a.purchaseDate }

/-- One iteration of the `assets.forEach` body in the `netPositions` memo:
add the signed quantity, add converted buy value for BUY transactions only,
and track the latest date. -/
def updatePosition (rates : Currency → ℚ) (a : Asset) (p : Position) : Position :=
  let p1 := { p with netQuantity := p.netQuantity + quantityChange a }
  let p2 :=
    if a.transactionType = .BUY then
      { p1 with totalBuyValue := p1.totalBuyValue +
          convertAmount rates a.purchasePrice a.purchaseCurrency p1.totalBuyCurrency }
    else p1
  if p2.lastPurchaseDate < a.purchaseDate then
    { p2 with lastPurchaseDate := a.purchaseDate }
  else p2

/-- The association-list state after the `assets.forEach` loop of
`netPositions`. -/
def netPositionsMap (rates : Currency → ℚ) (assets : List Asset) : PosMap :=
  assets.foldl
    (fun m a =>
      mapSet a.symbol (updatePosition rates a ((mapGet a.symbol m).getD (initPosition a))) m)
    []

/-- `netPositions` from `src/components/AssetList.tsx`:
`Array.from(positions.values())`. -/
def netPositions (rates : Currency → ℚ) (assets : List Asset) : List Position :=
  (netPositionsMap rates assets).map (fun kp => kp.2)

/-- An open lot in the FIFO queue: remaining quantity, per-unit price, and the
currency that price is denominated in. -/
structure Lot where
  quantity : ℚ
  price : ℚ
  currency : Currency
deriving DecidableEq, Repr

/-- The `while (remainingToSell > 0 && availableLots.length > 0)` loop of the
SELL branch of `calculateGainLoss`, returning the remaining lot queue and the
realized gains accumulated by this sale.

The loop body consumes `min lot.quantity remainingToSell` from the front lot.
When the front lot is not fully consumed (`lot.quantity - soldFromLot ≠ 0`),
necessarily `soldFromLot = remainingToSell`, so the JavaScript loop exits on
its next `remainingToSell > 0` test; the embedding returns directly in that
case, which makes the recursion structural on the lot queue. -/
def sellLoop (rates : Currency → ℚ) (displayCurrency : Currency)
    (salePrice : ℚ) (saleCurrency : Currency) :
    List Lot → ℚ → List Lot × ℚ
  | [], _ => ([], 0)
  | lot :: rest, remainingToSell =>
    if remainingToSell ≤ 0 then (lot :: rest, 0)
    else
      let soldFromLot := min lot.quantity remainingToSell
      let costBasis := convertAmount rates (lot.price * soldFromLot) lot.currency displayCurrency
      let saleValue := convertAmount rates (salePrice * soldFromLot) saleCurrency displayCurrency
      let gain := saleValue - costBasis
      if lot.quantity - soldFromLot = 0 then
        let r := sellLoop rates displayCurrency salePrice saleCurrency rest
          (remainingToSell - soldFromLot)
        (r.1, gain + r.2)
      else
        ({ lot with quantity := lot.quantity - soldFromLot } :: rest, gain)

/-- The FIFO replay state: the open-lot queue and the realized gains so far. -/
structure FifoState where
  availableLots : List Lot
  realizedGains : ℚ
deriving DecidableEq, Repr

/-- One iteration of the `sortedTransactions.forEach` body of
`calculateGainLoss`: BUY and EARN push a lot (at per-unit price
`purchasePrice / purchaseQuantity`), SELL runs the FIFO consumption loop. -/
def processTransaction (rates : Currency → ℚ) (displayCurrency : Currency)
    (s : FifoState) (t : Asset) : FifoState :=
  match t.transactionType with
  | .BUY =>
    { s with availableLots := s.availableLots ++
        [{ quantity := t.purchaseQuantity
           price := t.purchasePrice / t.purchaseQuantity
           currency := t.purchaseCurrency }] }
  | .EARN =>
    { s with availableLots := s.availableLots ++
        [{ quantity := t.purchaseQuantity
           price := t.purchasePrice / t.purchaseQuantity
           currency := t.purchaseCurrency }] }
  | .SELL =>
    let salePrice := t.purchasePrice / t.purchaseQuantity
    let r := sellLoop rates displayCurrency salePrice t.purchaseCurrency
      s.availableLots t.purchaseQuantity
    { availableLots := r.1, realizedGains := s.realizedGains + r.2 }

/-- Insert a transaction after every earlier-or-equal-dated element already in
the accumulator. -/
def insertByDate (a : Asset) : List Asset → List Asset
  | [] => [a]
  | b :: rest =>
    if b.purchaseDate ≤ a.purchaseDate then b :: insertByDate a rest
    else a :: b :: rest

/-- `[...assetTransactions].sort((a, b) => dateA - dateB)`: a stable sort by
ascending `purchaseDate` (JavaScript `Array.prototype.sort` is stable; a
stable insertion sort produces the same list). -/
def sortByDate (l : List Asset) : List Asset :=
  l.foldl (fun acc a => insertByDate a acc) []

/-- `reduce((sum, a) => sum + f(a), 0)`. -/
def sumBy {α : Type} (f : α → ℚ) (l : List α) : ℚ :=
  l.foldl (fun sum a => sum + f a) 0

/-- The sum of the remaining quantities of a lot queue. -/
def lotsQ (lots : List Lot) : ℚ :=
  (lots.map Lot.quantity).sum

/-- The FIFO replay performed by `calculateGainLoss` for one symbol: filter
that symbol's transactions, sort them by date, and fold them through
`processTransaction` starting from an empty lot queue. -/
def fifoFinalState (rates : Currency → ℚ) (displayCurrency : Currency)
    (assets : List Asset) (symbol : String) : FifoState :=
  let assetTransactions := assets.filter (fun a => a.symbol = symbol)
  let sortedTransactions := sortByDate assetTransactions
  sortedTransactions.foldl (processTransaction rates displayCurrency)
    { availableLots := [], realizedGains := 0 }

/-- The result record of `calculateGainLoss` (the formatted `value` string is
presentation only and is omitted; `totalGain` is the amount it formats). -/
structure GainLoss where
  realizedGains : ℚ
  unrealizedGain : ℚ
  totalGain : ℚ
  gainLossPercentage : ℚ
  isPositive : Bool
deriving DecidableEq, Repr

/-- `calculateGainLoss` from `src/components/AssetList.tsx`: filter the
symbol's transactions, sort by date, replay through the FIFO state, then
derive unrealized gain, total gain and the percentage. -/
def calculateGainLoss (rates : Currency → ℚ) (displayCurrency : Currency)
    (assets : List Asset) (position : Position) : GainLoss :=
  let st := fifoFinalState rates displayCurrency assets position.symbol
  let currentValue := convertAmount rates
    (position.currentPrice * position.netQuantity) position.currentPriceCurrency
    displayCurrency
  let remainingCostBasis := st.availableLots.foldl
    (fun sum lot => sum + convertAmount rates (lot.price * lot.quantity) lot.currency displayCurrency)
    0
  let unrealizedGain := currentValue - remainingCostBasis
  let totalGain := st.realizedGains + unrealizedGain
  let totalCost := if 0 < position.netQuantity then remainingCostBasis else position.totalBuyValue
  let gainLossPercentage := if totalCost ≠ 0 then totalGain / totalCost * 100 else 0
  { realizedGains := st.realizedGains
    unrealizedGain := unrealizedGain
    totalGain := totalGain
    gainLossPercentage := gainLossPercentage
    isPositive := decide (0 ≤ totalGain) }

/-- The portfolio-level totals of the `metrics` memo in
`src/components/PortfolioMetrics.tsx`. -/
structure Metrics where
  totalBuyValue : ℚ
  totalCurrentValue : ℚ
  totalProfit : ℚ
  totalEarnings : ℚ
deriving DecidableEq, Repr

/-- The `metrics` memo of `src/components/PortfolioMetrics.tsx`.  Its own
position fold performs exactly the `netPositions` updates on every field it
reads (netQuantity, totalBuyValue, totalBuyCurrency, current price fields), so
`netPositions` is reused.  `totalCurrentValue` clamps each transaction's
signed quantity at zero (`Math.max(0, q * (SELL ? -1 : 1))`), and
`totalProfit` is `totalCurrentValue - totalBuyValue`. -/
def metrics (rates : Currency → ℚ) (displayCurrency : Currency)
    (assets : List Asset) : Metrics :=
  let positions := netPositions rates assets
  let totalBuyValue := positions.foldl
    (fun total p => total + convertAmount rates p.totalBuyValue p.totalBuyCurrency displayCurrency)
    0
  let totalCurrentValue := assets.foldl
    (fun total a =>
      total + convertAmount rates
        (a.currentPrice * max 0 (a.purchaseQuantity * (if a.transactionType = .SELL then -1 else 1)))
        a.currentPriceCurrency displayCurrency)
    0
  let totalEarnings := (assets.filter (fun a => a.transactionType = .EARN)).foldl
    (fun total a =>
      total + convertAmount rates (a.purchaseQuantity * a.currentPrice)
        a.currentPriceCurrency displayCurrency)
    0
  { totalBuyValue := totalBuyValue
    totalCurrentValue := totalCurrentValue
    totalProfit := totalCurrentValue - totalBuyValue
    totalEarnings := totalEarnings }

/-- The form data accepted by `saveAsset`, from `src/types/asset.ts`
(`interface AssetFormData`). -/
structure AssetFormData where
  symbol : String
  name : String
  purchaseQuantity : ℚ
  purchasePrice : ℚ
  purchaseCurrency : Currency
  purchaseDate : ℕ
  transactionType : TransactionType
deriving DecidableEq, Repr

/-- The symbol catalog of `src/types/crypto.ts` (`DEFAULT_CRYPTO_SYMBOLS`),
used when no stored catalog overrides it. -/
def DEFAULT_CRYPTO_SYMBOLS : List String :=
  ["GOLD", "BTC", "ETH", "BNB", "XRP", "SOL", "ADA", "DOGE", "DOT", "MATIC",
   "LINK", "WLD", "CELO", "SUI", "XLM", "LTC"]

/-- `isValidCryptoSymbol` from `src/types/crypto.ts`: membership of the symbol
in the loaded catalog (`symbols.some(s => s.value === symbol)`). -/
def isValidCryptoSymbol (catalog : List String) (symbol : String) : Bool :=
  catalog.any (fun s => s = symbol)

/-- The record appended by `saveAsset`: the form data plus a fresh id,
`currentPrice: 0`, `currentPriceCurrency: 'USD'` and the creation timestamp. -/
def mkNewAsset (newId : String) (now : ℕ) (data : AssetFormData) : Asset :=
  { id := newId
    symbol := data.symbol
    name := data.name
    purchaseQuantity := data.purchaseQuantity
    purchasePrice := data.purchasePrice
    purchaseCurrency := data.purchaseCurrency
    purchaseDate := data.purchaseDate
    currentPrice := 0
    currentPriceCurrency := .USD
    createdAt := now
    transactionType := data.transactionType }

/-- `saveAsset` from `src/utils/db.ts` as a pure function on the stored list:
reject unknown symbols; for SELL, reject a quantity exceeding
`totalBought - totalSold` (BUY and EARN bought, SELL sold); otherwise append
exactly the new record.  An `Except.error` models a thrown exception, which in
the source happens before any `localStorage.setItem`, leaving the store
unchanged. -/
def saveAsset (catalog : List String) (newId : String) (now : ℕ)
    (assets : List Asset) (data : AssetFormData) : Except String (List Asset) :=
  if isValidCryptoSymbol catalog data.symbol then
    if data.transactionType = .SELL then
      let totalBought := sumBy (fun a => a.purchaseQuantity)
        (assets.filter (fun a => a.symbol = data.symbol ∧
          (a.transactionType = .BUY ∨ a.transactionType = .EARN)))
      let totalSold := sumBy (fun a => a.purchaseQuantity)
        (assets.filter (fun a => a.symbol = data.symbol ∧ a.transactionType = .SELL))
      let availableQuantity := totalBought - totalSold
      if availableQuantity < data.purchaseQuantity then
        Except.error "Cannot sell: insufficient quantity available"
      else
        Except.ok (assets ++ [mkNewAsset newId now data])
    else
      Except.ok (assets ++ [mkNewAsset newId now data])
  else
    Except.error ("Invalid crypto symbol: " ++ data.symbol)

/-! ## Derived views of the position fold (used to state and prove the
claims; each is proved equal to the corresponding part of the source
embedding) -/

/-- The distinct symbols of a transaction list, in first-occurrence order —
the key set of the JavaScript `Map` built by `netPositions`. -/
def firstKeys (assets : List Asset) : List String :=
  assets.foldl (fun ks a => if a.symbol ∈ ks then ks else ks ++ [a.symbol]) []

/-- Placeholder position (only returned for symbols absent from the list). -/
def junkPosition : Position :=
  { symbol := ""
    name := ""
    netQuantity := 0
    totalBuyValue := 0
    totalBuyCurrency := .USD
    currentPrice := 0
    currentPriceCurrency := .USD
    lastPurchaseDate := 0 }

/-- Fold a batch of transactions into an existing position. -/
def posFold (rates : Currency → ℚ) (p : Position) (l : List Asset) : Position :=
  l.foldl (fun p t => updatePosition rates t p) p

/-- The position the `netPositions` fold produces for one symbol: the
first-seen transaction initialises the position and every transaction of the
symbol (including the first) is folded in. -/
def posForKey (rates : Currency → ℚ) (assets : List Asset) (k : String) : Position :=
  match assets.filter (fun a => a.symbol = k) with
  | [] => junkPosition
  | a :: l => posFold rates (initPosition a) (a :: l)

/-- The lot pushed by a BUY or EARN transaction. -/
def lotOf (t : Asset) : Lot :=
  { quantity := t.purchaseQuantity
    price := t.purchasePrice / t.purchaseQuantity
    currency := t.purchaseCurrency }

/-- The lot-queue part of the FIFO sell loop (`sellLoop` without the gain
accumulation — proved equal to its first component). -/
def consumeLots : List Lot → ℚ → List Lot
  | [], _ => []
  | lot :: rest, rem =>
    if rem ≤ 0 then lot :: rest
    else
      if lot.quantity - min lot.quantity rem = 0 then
        consumeLots rest (rem - min lot.quantity rem)
      else
        { lot with quantity := lot.quantity - min lot.quantity rem } :: rest

/-- The lot-queue transition of one transaction of the FIFO replay. -/
def stepLots (lots : List Lot) (t : Asset) : List Lot :=
  match t.transactionType with
  | .BUY => lots ++ [lotOf t]
  | .EARN => lots ++ [lotOf t]
  | .SELL => consumeLots lots t.purchaseQuantity

/-- No SELL in the (already sorted) transaction list asks for more than the
open-lot total available at its point of the replay. -/
def noOversell : List Lot → List Asset → Bool
  | _, [] => true
  | lots, t :: rest =>
    (match t.transactionType with
     | .SELL => decide (t.purchaseQuantity ≤ lotsQ lots)
     | _ => true) && noOversell (stepLots lots t) rest

/-- A BUY transaction's total price converted to the display currency; zero
for other transaction types (the aggregator's per-transaction buy-cost
contribution, expressed in the display currency). -/
def buyCostDisp (rates : Currency → ℚ) (disp : Currency) (x : Asset) : ℚ :=
  if x.transactionType = .BUY then
    convertAmount rates x.purchasePrice x.purchaseCurrency disp
  else 0

/-- A transaction's own quantity valued at its record's current price,
converted to the display currency. -/
def currentValueDisp (rates : Currency → ℚ) (disp : Currency) (x : Asset) : ℚ :=
  convertAmount rates (x.currentPrice * x.purchaseQuantity)
    x.currentPriceCurrency disp

/-! ## Concrete inputs used by counterexamples and witnesses -/

/-- A rate table where every currency has rate 1 (all conversions are the
identity). -/
def flatRates : Currency → ℚ := fun _ => 1

/-- A rate table with 1 USD = 4 MYR (the USD rate is pinned to 1 in the
source). -/
def usdMyrRates : Currency → ℚ := fun c =>
  match c with
  | .USD => 1
  | .MYR => 4

/-- A sample transaction in USD for concrete computations. -/
def sampleTx (sym : String) (ty : TransactionType) (q p cp : ℚ) (d : ℕ) : Asset :=
  { id := ""
    symbol := sym
    name := sym
    purchaseQuantity := q
    purchasePrice := p
    purchaseCurrency := .USD
    purchaseDate := d
    currentPrice := cp
    currentPriceCurrency := .USD
    createdAt := 0
    transactionType := ty }

/-- History for the FIFO-ordering test: BUY 1 @ 10 on day 1, BUY 1 @ 20 on
day 2, SELL 1 @ 30 on day 3, all in the display currency. -/
def fifoAssets : List Asset :=
  [sampleTx "BTC" .BUY 1 10 0 1, sampleTx "BTC" .BUY 1 20 0 2,
   sampleTx "BTC" .SELL 1 30 0 3]

/-- History with a priced SELL: BUY 1 @ 10 on day 1, SELL 1 @ 30 on day 2
(current price 0). -/
def sellAssets : List Asset :=
  [sampleTx "BTC" .BUY 1 10 0 1, sampleTx "BTC" .SELL 1 30 0 2]

/-- History for the current-value clamp: BUY 2 then SELL 1, current price
10. -/
def clampAssets : List Asset :=
  [sampleTx "BTC" .BUY 2 8 10 1, sampleTx "BTC" .SELL 1 9 10 2]

/-- History whose first-seen transaction for the symbol is an EARN in MYR,
followed by a BUY of 100 USD. -/
def earnFirstAssets : List Asset :=
  [{ sampleTx "BTC" .EARN 1 0 0 1 with purchaseCurrency := .MYR },
   sampleTx "BTC" .BUY 1 100 0 2]

/-- An oversold history: a single SELL with no prior lots. -/
def oversoldAssets : List Asset :=
  [sampleTx "BTC" .SELL 1 30 0 1]

/-- A zero-net history that oversells before buying: SELL 1 on day 1, BUY 1 @
10 on day 2. -/
def sellBeforeBuyAssets : List Asset :=
  [sampleTx "BTC" .SELL 1 30 0 1, sampleTx "BTC" .BUY 1 10 0 2]

/-- A SELL form for 1 BTC at a total price of 30 USD. -/
def sellForm : AssetFormData :=
  { symbol := "BTC"
    name := "Bitcoin"
    purchaseQuantity := 1
    purchasePrice := 30
    purchaseCurrency := .USD
    purchaseDate := 1
    transactionType := .SELL }

/-- The position `netPositions` produces for `oversoldAssets`. -/
def oversoldPosition : Position :=
  { symbol := "BTC"
    name := "BTC"
    netQuantity := -1
    totalBuyValue := 0
    totalBuyCurrency := .USD
    currentPrice := 0
    currentPriceCurrency := .USD
    lastPurchaseDate := 1 }

/-! ## Theorems -/

/-- C1: FIFO lot consumption order.  For BUY 1 @ 10 (day 1), BUY 1 @ 20
(day 2), SELL 1 @ 30 (day 3), all in the display currency, the realized gain
computed by `calculateGainLoss` is 20 — the earliest lot is consumed first —
for the single position the history produces. -/
theorem fifo_consumes_earliest_lot_first :
    (netPositions flatRates fifoAssets).map
      (fun p => (calculateGainLoss flatRates .USD fifoAssets p).realizedGains) = [20] := by
  norm_num +decide [fifoAssets, sampleTx, flatRates, calculateGainLoss,
    fifoFinalState, sortByDate, insertByDate, processTransaction, sellLoop,
    convertAmount, netPositions, netPositionsMap, mapGet, mapSet, initPosition,
    updatePosition, quantityChange]

/-- C2 counterexample: on BUY 1 @ 10 (day 1) then SELL 1 @ 30 (day 2) with
current price 0, the portfolio `totalProfit` is `0 - 10 = -10` (it is computed
as `totalCurrentValue - totalBuyValue`), while the sum of FIFO total gains
across positions is the realized `30 - 10 = 20`.  The two disagree. -/
theorem totalProfit_not_sum_of_fifo_gains :
    (metrics flatRates .USD sellAssets).totalProfit ≠
      ((netPositions flatRates sellAssets).map
        (fun p => (calculateGainLoss flatRates .USD sellAssets p).totalGain)).sum := by
  norm_num +decide [sellAssets, sampleTx, flatRates, calculateGainLoss,
    fifoFinalState, sortByDate, insertByDate, processTransaction, sellLoop,
    convertAmount, netPositions, netPositionsMap, mapGet, mapSet, initPosition,
    updatePosition, quantityChange, metrics]

/-- C3 counterexample: on BUY 2 then SELL 1 with current price 10, the code's
`totalCurrentValue` is 20 (each SELL contributes `max(0, -q) = 0` instead of
subtracting), while `convert(currentPrice * netQuantity)` summed over symbols
is 10. -/
theorem totalCurrentValue_not_net_quantity_value :
    (metrics flatRates .USD clampAssets).totalCurrentValue ≠
      ((netPositions flatRates clampAssets).map
        (fun p => convertAmount flatRates (p.currentPrice * p.netQuantity)
          p.currentPriceCurrency .USD)).sum := by
  norm_num +decide [clampAssets, sampleTx, flatRates, convertAmount,
    netPositions, netPositionsMap, mapGet, mapSet, initPosition,
    updatePosition, quantityChange, metrics]

/-- C4 counterexample: when the first-seen transaction for a symbol is an EARN
in MYR and the only BUY is 100 USD (1 USD = 4 MYR), the position's
`totalBuyCurrency` is MYR — the currency of the first-seen transaction of any
type — and `totalBuyValue` is the converted 400, not the first BUY's USD 100. -/
theorem totalBuyCurrency_from_first_transaction_not_first_buy :
    (netPositions usdMyrRates earnFirstAssets).map
      (fun p => (p.totalBuyCurrency, p.totalBuyValue)) = [(Currency.MYR, 400)] ∧
    (earnFirstAssets.filter
      (fun a => a.transactionType = .BUY)).map Asset.purchaseCurrency = [Currency.USD] := by
  constructor
  · norm_num +decide [earnFirstAssets, sampleTx, usdMyrRates, convertAmount,
      netPositions, netPositionsMap, mapGet, mapSet, initPosition,
      updatePosition, quantityChange]
  · norm_num +decide [earnFirstAssets, sampleTx]

/-- C5 counterexample: on a history consisting of a single SELL, the Position
Aggregator's net quantity is -1 while the FIFO queue is empty (sum of
remaining lot quantities 0), so the cross-component invariant fails for
oversold histories. -/
theorem net_quantity_not_lot_sum_when_oversold :
    ¬ (∀ p ∈ netPositions flatRates oversoldAssets,
        p.netQuantity =
          lotsQ (fifoFinalState flatRates .USD oversoldAssets p.symbol).availableLots) := by
  intro h
  have hp := h oversoldPosition (by
    norm_num +decide [oversoldAssets, oversoldPosition, sampleTx, flatRates,
      netPositions, netPositionsMap, mapGet, mapSet, initPosition,
      updatePosition, quantityChange])
  revert hp
  norm_num +decide [oversoldAssets, oversoldPosition, sampleTx, flatRates,
    fifoFinalState, sortByDate, insertByDate, processTransaction, sellLoop,
    convertAmount, lotsQ]

theorem mapGet_mapSet_self (k : String) (v : Position) :
    ∀ m : PosMap, mapGet k (mapSet k v m) = some v := by
  intro m
  induction m with
  | nil => simp [mapGet, mapSet]
  | cons kp rest ih =>
    obtain ⟨k', p⟩ := kp
    by_cases h : k' = k
    · simp [mapSet, h, mapGet]
    · simp [mapSet, h, mapGet, ih]

theorem mapGet_map_keys (g : String → Position) (k : String) :
    ∀ ks : List String,
      mapGet k (ks.map (fun x => (x, g x))) =
        if k ∈ ks then some (g k) else none := by
  intro ks
  induction ks with
  | nil => simp [mapGet]
  | cons k0 rest ih =>
    by_cases h : k0 = k
    · subst h
      simp [mapGet]
    · by_cases hk : k ∈ rest <;>
        simp [mapGet, h, ih, hk, List.mem_cons, Ne.symm h]

theorem mapSet_map_keys_mem (g : String → Position) (v : Position) (k : String) :
    ∀ ks : List String, ks.Nodup → k ∈ ks →
      mapSet k v (ks.map (fun x => (x, g x))) =
        ks.map (fun x => (x, if x = k then v else g x)) := by
  intro ks
  induction ks with
  | nil => simp
  | cons k0 rest ih =>
    intro hnd hk
    by_cases h : k0 = k
    · subst h
      have hk0 : k0 ∉ rest := (List.nodup_cons.mp hnd).1
      simp only [List.map_cons, mapSet, if_pos rfl, if_pos trivial]
      refine congrArg₂ _ rfl ?_
      apply List.map_congr_left
      intro x hx
      have : x ≠ k0 := fun he => hk0 (he ▸ hx)
      simp [this]
    · have hk' : k ∈ rest := by
        rcases List.mem_cons.mp hk with h1 | h1
        · exact absurd h1.symm h
        · exact h1
      simp only [List.map_cons, mapSet, if_neg h, if_neg (Ne.symm h)]
      rw [ih (List.nodup_cons.mp hnd).2 hk']

theorem mapSet_map_keys_not_mem (g : String → Position) (v : Position) (k : String) :
    ∀ ks : List String, k ∉ ks →
      mapSet k v (ks.map (fun x => (x, g x))) =
        ks.map (fun x => (x, g x)) ++ [(k, v)] := by
  intro ks
  induction ks with
  | nil => simp [mapSet]
  | cons k0 rest ih =>
    intro hk
    have h0 : k0 ≠ k := fun he => hk (by simp [he])
    have h1 : k ∉ rest := fun he => hk (by simp [he])
    simp only [List.map_cons, mapSet, if_neg h0, List.cons_append]
    rw [ih h1]

theorem firstKeys_fold_mem (k : String) :
    ∀ (l : List Asset) (acc : List String),
      (k ∈ l.foldl (fun ks a => if a.symbol ∈ ks then ks else ks ++ [a.symbol]) acc) ↔
        k ∈ acc ∨ k ∈ l.map (fun a => a.symbol) := by
  intro l
  induction l with
  | nil => simp
  | cons a rest ih =>
    intro acc
    simp only [List.foldl_cons, List.map_cons, List.mem_cons]
    rw [ih]
    by_cases h : a.symbol ∈ acc
    · rw [if_pos h]
      constructor
      · rintro (h1 | h1)
        · exact Or.inl h1
        · exact Or.inr (Or.inr h1)
      · rintro (h1 | h1 | h1)
        · exact Or.inl h1
        · exact Or.inl (h1 ▸ h)
        · exact Or.inr h1
    · rw [if_neg h]
      simp only [List.mem_append, List.mem_singleton]
      tauto

theorem mem_firstKeys (k : String) (assets : List Asset) :
    k ∈ firstKeys assets ↔ k ∈ assets.map (fun a => a.symbol) := by
  rw [firstKeys, firstKeys_fold_mem]
  simp

theorem firstKeys_fold_nodup :
    ∀ (l : List Asset) (acc : List String), acc.Nodup →
      (l.foldl (fun ks a => if a.symbol ∈ ks then ks else ks ++ [a.symbol]) acc).Nodup := by
  intro l
  induction l with
  | nil => intro acc h; exact h
  | cons a rest ih =>
    intro acc h
    simp only [List.foldl_cons]
    by_cases hs : a.symbol ∈ acc
    · rw [if_pos hs]; exact ih acc h
    · rw [if_neg hs]
      refine ih _ ?_
      simp [List.nodup_append, h, hs]

theorem firstKeys_nodup (assets : List Asset) : (firstKeys assets).Nodup :=
  firstKeys_fold_nodup assets [] List.nodup_nil

theorem firstKeys_append_single (l : List Asset) (b : Asset) :
    firstKeys (l ++ [b]) =
      if b.symbol ∈ firstKeys l then firstKeys l else firstKeys l ++ [b.symbol] := by
  simp [firstKeys, List.foldl_append]

theorem filter_symbol_ne_nil (assets : List Asset) (k : String) :
    assets.filter (fun a => a.symbol = k) ≠ [] ↔
      k ∈ assets.map (fun a => a.symbol) := by
  constructor
  · intro h
    cases hf : assets.filter (fun a => a.symbol = k) with
    | nil => exact absurd hf h
    | cons a rest =>
      have ha : a ∈ assets.filter (fun a => a.symbol = k) := by simp [hf]
      have := List.mem_filter.mp ha
      exact List.mem_map.mpr ⟨a, this.1, by simpa using this.2⟩
  · intro h hf
    obtain ⟨a, ha, hak⟩ := List.mem_map.mp h
    have : a ∈ assets.filter (fun x => x.symbol = k) :=
      List.mem_filter.mpr ⟨ha, by simp [hak]⟩
    simp [hf] at this

/-- The `netPositions` fold is, entry for entry, the per-symbol aggregate over
the symbol's transactions, keyed in first-occurrence order. -/
theorem netPositionsMap_eq (rates : Currency → ℚ) (assets : List Asset) :
    netPositionsMap rates assets =
      (firstKeys assets).map (fun k => (k, posForKey rates assets k)) := by
  induction assets using List.reverseRecOn with
  | nil => rfl
  | append_singleton l b ih =>
    have hstep : netPositionsMap rates (l ++ [b]) =
        mapSet b.symbol
          (updatePosition rates b
            ((mapGet b.symbol (netPositionsMap rates l)).getD (initPosition b)))
          (netPositionsMap rates l) := by
      simp [netPositionsMap, List.foldl_append]
    rw [hstep, ih, firstKeys_append_single, mapGet_map_keys]
    by_cases hb : b.symbol ∈ firstKeys l
    · simp only [if_pos hb, Option.getD_some]
      rw [mapSet_map_keys_mem _ _ _ _ (firstKeys_nodup l) hb]
      apply List.map_congr_left
      intro k hk
      by_cases hkb : k = b.symbol
      · have hbk : k ∈ firstKeys l := hkb ▸ hb
        have hne : l.filter (fun a => a.symbol = k) ≠ [] :=
          (filter_symbol_ne_nil l k).mpr ((mem_firstKeys k l).mp hbk)
        obtain ⟨a, l', hf⟩ : ∃ a l', l.filter (fun a => a.symbol = k) = a :: l' := by
          cases hfl : l.filter (fun a => a.symbol = k) with
          | nil => exact absurd hfl hne
          | cons a t => exact ⟨a, t, rfl⟩
        have hfb : (l ++ [b]).filter (fun a => a.symbol = k) = a :: (l' ++ [b]) := by
          rw [List.filter_append, hf]
          simp [hkb.symm]
        have e1 : posForKey rates l k = posFold rates (initPosition a) (a :: l') := by
          simp only [posForKey, hf]
        have e2 : posForKey rates (l ++ [b]) k =
            posFold rates (initPosition a) (a :: (l' ++ [b])) := by
          simp only [posForKey, hfb]
        simp only [if_pos hkb, ← hkb, e1, e2, posFold, List.foldl_cons,
          List.foldl_append, List.foldl_nil, eq_self_iff_true, if_true]
      · have hkb' : ¬ b.symbol = k := fun he => hkb he.symm
        have hfb : (l ++ [b]).filter (fun a => a.symbol = k) =
            l.filter (fun a => a.symbol = k) := by
          rw [List.filter_append]
          simp [hkb']
        simp only [if_neg hkb, posForKey, hfb]
    · simp only [if_neg hb, Option.getD_none]
      rw [mapSet_map_keys_not_mem _ _ _ _ hb, List.map_append]
      have hnil : l.filter (fun a => a.symbol = b.symbol) = [] := by
        by_contra h
        exact hb ((mem_firstKeys _ l).mpr ((filter_symbol_ne_nil l _).mp h))
      refine congrArg₂ _ ?_ ?_
      · apply List.map_congr_left
        intro k hk
        have hkb : ¬ b.symbol = k := fun he => hb (he ▸ hk)
        have hfb : (l ++ [b]).filter (fun a => a.symbol = k) =
            l.filter (fun a => a.symbol = k) := by
          rw [List.filter_append]
          simp [hkb]
        simp only [posForKey, hfb]
      · have hfb : (l ++ [b]).filter (fun a => a.symbol = b.symbol) = [b] := by
          rw [List.filter_append, hnil]
          simp
        have e2 : posForKey rates (l ++ [b]) b.symbol =
            posFold rates (initPosition b) [b] := by
          simp only [posForKey, hfb]
        simp only [e2, posFold, List.foldl_cons, List.foldl_nil, List.map_cons,
          List.map_nil]

/-- `netPositions` lists the per-symbol aggregates in first-occurrence
order. -/
theorem netPositions_eq (rates : Currency → ℚ) (assets : List Asset) :
    netPositions rates assets = (firstKeys assets).map (posForKey rates assets) := by
  simp [netPositions, netPositionsMap_eq]

theorem mem_netPositions {rates : Currency → ℚ} {assets : List Asset} {p : Position} :
    p ∈ netPositions rates assets ↔
      ∃ k ∈ firstKeys assets, p = posForKey rates assets k := by
  rw [netPositions_eq]
  simp only [List.mem_map]
  constructor
  · rintro ⟨k, hk, rfl⟩; exact ⟨k, hk, rfl⟩
  · rintro ⟨k, hk, rfl⟩; exact ⟨k, hk, rfl⟩

theorem updatePosition_symbol (rates : Currency → ℚ) (a : Asset) (p : Position) :
    (updatePosition rates a p).symbol = p.symbol := by
  simp only [updatePosition]
  split_ifs <;> rfl

theorem updatePosition_totalBuyCurrency (rates : Currency → ℚ) (a : Asset) (p : Position) :
    (updatePosition rates a p).totalBuyCurrency = p.totalBuyCurrency := by
  simp only [updatePosition]
  split_ifs <;> rfl

theorem updatePosition_currentPrice (rates : Currency → ℚ) (a : Asset) (p : Position) :
    (updatePosition rates a p).currentPrice = p.currentPrice := by
  simp only [updatePosition]
  split_ifs <;> rfl

theorem updatePosition_currentPriceCurrency (rates : Currency → ℚ) (a : Asset) (p : Position) :
    (updatePosition rates a p).currentPriceCurrency = p.currentPriceCurrency := by
  simp only [updatePosition]
  split_ifs <;> rfl

theorem updatePosition_netQuantity (rates : Currency → ℚ) (a : Asset) (p : Position) :
    (updatePosition rates a p).netQuantity = p.netQuantity + quantityChange a := by
  simp only [updatePosition]
  split_ifs <;> rfl

theorem updatePosition_totalBuyValue (rates : Currency → ℚ) (a : Asset) (p : Position) :
    (updatePosition rates a p).totalBuyValue = p.totalBuyValue +
      (if a.transactionType = .BUY then
        convertAmount rates a.purchasePrice a.purchaseCurrency p.totalBuyCurrency
       else 0) := by
  simp only [updatePosition]
  split_ifs <;> simp

theorem posFold_symbol (rates : Currency → ℚ) (l : List Asset) :
    ∀ p : Position, (posFold rates p l).symbol = p.symbol := by
  induction l with
  | nil => intro p; rfl
  | cons a rest ih =>
    intro p
    rw [posFold, List.foldl_cons, ← posFold, ih, updatePosition_symbol]

theorem posFold_totalBuyCurrency (rates : Currency → ℚ) (l : List Asset) :
    ∀ p : Position, (posFold rates p l).totalBuyCurrency = p.totalBuyCurrency := by
  induction l with
  | nil => intro p; rfl
  | cons a rest ih =>
    intro p
    rw [posFold, List.foldl_cons, ← posFold, ih, updatePosition_totalBuyCurrency]

theorem posFold_currentPrice (rates : Currency → ℚ) (l : List Asset) :
    ∀ p : Position, (posFold rates p l).currentPrice = p.currentPrice := by
  induction l with
  | nil => intro p; rfl
  | cons a rest ih =>
    intro p
    rw [posFold, List.foldl_cons, ← posFold, ih, updatePosition_currentPrice]

theorem posFold_currentPriceCurrency (rates : Currency → ℚ) (l : List Asset) :
    ∀ p : Position, (posFold rates p l).currentPriceCurrency = p.currentPriceCurrency := by
  induction l with
  | nil => intro p; rfl
  | cons a rest ih =>
    intro p
    rw [posFold, List.foldl_cons, ← posFold, ih, updatePosition_currentPriceCurrency]

theorem posFold_netQuantity (rates : Currency → ℚ) (l : List Asset) :
    ∀ p : Position,
      (posFold rates p l).netQuantity =
        p.netQuantity + (l.map quantityChange).sum := by
  induction l with
  | nil => intro p; simp [posFold]
  | cons a rest ih =>
    intro p
    rw [posFold, List.foldl_cons, ← posFold, ih, updatePosition_netQuantity]
    simp
    ring

theorem posFold_totalBuyValue (rates : Currency → ℚ) (l : List Asset) :
    ∀ p : Position,
      (posFold rates p l).totalBuyValue =
        p.totalBuyValue +
          (l.map (fun a =>
            if a.transactionType = .BUY then
              convertAmount rates a.purchasePrice a.purchaseCurrency p.totalBuyCurrency
            else 0)).sum := by
  induction l with
  | nil => intro p; simp [posFold]
  | cons a rest ih =>
    intro p
    rw [posFold, List.foldl_cons, ← posFold, ih, updatePosition_totalBuyValue,
      updatePosition_totalBuyCurrency]
    simp
    ring

theorem posForKey_fields (rates : Currency → ℚ) (assets : List Asset)
    (k : String) (a : Asset) (l : List Asset)
    (hf : assets.filter (fun x => x.symbol = k) = a :: l) :
    (posForKey rates assets k).symbol = k ∧
    (posForKey rates assets k).totalBuyCurrency = a.purchaseCurrency ∧
    (posForKey rates assets k).currentPrice = a.currentPrice ∧
    (posForKey rates assets k).currentPriceCurrency = a.currentPriceCurrency := by
  have hak : a.symbol = k := by
    have : a ∈ assets.filter (fun x => x.symbol = k) := by simp [hf]
    simpa using (List.mem_filter.mp this).2
  have he : posForKey rates assets k = posFold rates (initPosition a) (a :: l) := by
    simp only [posForKey, hf]
  rw [he]
  refine ⟨?_, ?_, ?_, ?_⟩
  · rw [posFold_symbol]; simpa [initPosition] using hak
  · rw [posFold_totalBuyCurrency]; rfl
  · rw [posFold_currentPrice]; rfl
  · rw [posFold_currentPriceCurrency]; rfl

theorem posForKey_netQuantity (rates : Currency → ℚ) (assets : List Asset)
    (k : String) (a : Asset) (l : List Asset)
    (hf : assets.filter (fun x => x.symbol = k) = a :: l) :
    (posForKey rates assets k).netQuantity =
      (((a :: l)).map quantityChange).sum := by
  have he : posForKey rates assets k = posFold rates (initPosition a) (a :: l) := by
    simp only [posForKey, hf]
  rw [he, posFold_netQuantity]
  simp [initPosition]

theorem posForKey_totalBuyValue (rates : Currency → ℚ) (assets : List Asset)
    (k : String) (a : Asset) (l : List Asset)
    (hf : assets.filter (fun x => x.symbol = k) = a :: l) :
    (posForKey rates assets k).totalBuyValue =
      ((a :: l).map (fun x =>
        if x.transactionType = .BUY then
          convertAmount rates x.purchasePrice x.purchaseCurrency a.purchaseCurrency
        else 0)).sum := by
  have he : posForKey rates assets k = posFold rates (initPosition a) (a :: l) := by
    simp only [posForKey, hf]
  rw [he, posFold_totalBuyValue]
  simp [initPosition]

/-- C4 amended: the Position's monetary totals are denominated in the currency
of the first-seen transaction of any type for that symbol (not the first-seen
BUY). -/
theorem position_currency_from_first_seen_transaction (rates : Currency → ℚ)
    (assets : List Asset) (p : Position) (hp : p ∈ netPositions rates assets)
    (a : Asset) (l : List Asset)
    (hf : assets.filter (fun x => x.symbol = p.symbol) = a :: l) :
    p.totalBuyCurrency = a.purchaseCurrency := by
  obtain ⟨k, hk, rfl⟩ := mem_netPositions.mp hp
  obtain ⟨a0, l0, hf0⟩ : ∃ a0 l0, assets.filter (fun x => x.symbol = k) = a0 :: l0 := by
    cases hfl : assets.filter (fun x => x.symbol = k) with
    | nil =>
      exact absurd hfl ((filter_symbol_ne_nil assets k).mpr ((mem_firstKeys k assets).mp hk))
    | cons x t => exact ⟨x, t, rfl⟩
  have hsym : (posForKey rates assets k).symbol = k := (posForKey_fields rates assets k a0 l0 hf0).1
  rw [hsym] at hf
  rw [hf0] at hf
  injection hf with h1 h2
  subst h1
  exact (posForKey_fields rates assets k a0 l0 hf0).2.1

/-- Witness for C4 amended: in `earnFirstAssets` the first-seen transaction is
the MYR EARN, so the position's currency is MYR. -/
theorem position_currency_from_first_seen_transaction_witness :
    (posForKey usdMyrRates earnFirstAssets "BTC").totalBuyCurrency = Currency.MYR := by
  have h := position_currency_from_first_seen_transaction usdMyrRates earnFirstAssets
    (posForKey usdMyrRates earnFirstAssets "BTC")
    (by
      refine mem_netPositions.mpr ⟨"BTC", ?_, rfl⟩
      norm_num +decide [firstKeys, earnFirstAssets, sampleTx])
    ({ sampleTx "BTC" .EARN 1 0 0 1 with purchaseCurrency := .MYR }) [sampleTx "BTC" .BUY 1 100 0 2]
    (by
      have hs : (posForKey usdMyrRates earnFirstAssets "BTC").symbol = "BTC" := by
        norm_num +decide [posForKey, earnFirstAssets, sampleTx, posFold,
          initPosition, updatePosition, quantityChange, convertAmount, usdMyrRates]
      rw [hs]
      norm_num +decide [earnFirstAssets, sampleTx])
  simpa using h

@[simp] theorem convertAmount_zero (rates : Currency → ℚ) (f t : Currency) :
    convertAmount rates 0 f t = 0 := by
  simp [convertAmount]

theorem convertAmount_add (rates : Currency → ℚ) (x y : ℚ) (f t : Currency) :
    convertAmount rates (x + y) f t =
      convertAmount rates x f t + convertAmount rates y f t := by
  by_cases h : f = t <;> simp [convertAmount, h] <;> ring

theorem convertAmount_sum (rates : Currency → ℚ) (f t : Currency) (l : List ℚ) :
    convertAmount rates l.sum f t =
      (l.map (fun x => convertAmount rates x f t)).sum := by
  induction l with
  | nil => simp
  | cons x rest ih => simp [convertAmount_add, ih]

theorem convertAmount_trans (rates : Currency → ℚ)
    (hr : ∀ c, rates c ≠ 0) (x : ℚ) (a b c : Currency) :
    convertAmount rates (convertAmount rates x a b) b c =
      convertAmount rates x a c := by
  by_cases hab : a = b
  · subst hab; simp [convertAmount]
  · by_cases hbc : b = c
    · subst hbc; simp [convertAmount, hab]
    · by_cases hac : a = c
      · subst hac
        simp only [convertAmount, if_neg hab, if_neg hbc, if_pos rfl]
        rw [mul_div_cancel_right₀ _ (hr b), div_mul_cancel₀ _ (hr a)]
        simp
      · simp only [convertAmount, if_neg hab, if_neg hbc, if_neg hac]
        rw [mul_div_cancel_right₀ _ (hr b)]

theorem foldl_add_sum {α : Type} (f : α → ℚ) :
    ∀ (l : List α) (c : ℚ), l.foldl (fun t a => t + f a) c = c + (l.map f).sum := by
  intro l
  induction l with
  | nil => intro c; simp
  | cons a rest ih =>
    intro c
    simp only [List.foldl_cons, List.map_cons, List.sum_cons, ih]
    ring

theorem sum_map_filter_split {α : Type} (p : α → Bool) (f : α → ℚ) (l : List α) :
    ((l.filter p).map f).sum + ((l.filter (fun a => !(p a))).map f).sum =
      (l.map f).sum := by
  induction l with
  | nil => simp
  | cons a rest ih =>
    by_cases h : p a <;>
      simp [List.filter_cons, h, List.sum_cons] <;> linarith

/-- C3 amended: `totalCurrentValue` is the sum, over BUY and EARN
transactions only, of the converted value of the transaction's own quantity at
the record's current price; SELL transactions contribute zero (their signed
quantity is clamped at zero by `Math.max(0, ...)`), so sold quantities are not
subtracted. -/
theorem totalCurrentValue_counts_nonsell_only (rates : Currency → ℚ)
    (disp : Currency) (assets : List Asset)
    (hq : ∀ a ∈ assets, 0 ≤ a.purchaseQuantity) :
    (metrics rates disp assets).totalCurrentValue =
      ((assets.filter (fun a => ¬ a.transactionType = .SELL)).map
        (fun a => convertAmount rates (a.currentPrice * a.purchaseQuantity)
          a.currentPriceCurrency disp)).sum := by
  have key : ∀ l : List Asset, (∀ a ∈ l, 0 ≤ a.purchaseQuantity) →
      (l.map (fun a =>
        convertAmount rates
          (a.currentPrice *
            max 0 (a.purchaseQuantity * (if a.transactionType = .SELL then -1 else 1)))
          a.currentPriceCurrency disp)).sum =
      ((l.filter (fun a => ¬ a.transactionType = .SELL)).map
        (fun a => convertAmount rates (a.currentPrice * a.purchaseQuantity)
          a.currentPriceCurrency disp)).sum := by
    intro l
    induction l with
    | nil => intro _; simp
    | cons a rest ih =>
      intro hql
      have ha := hql a (by simp)
      have hrest := fun x hx => hql x (List.mem_cons_of_mem a hx)
      by_cases h : a.transactionType = .SELL
      · have hm : max 0 (a.purchaseQuantity * (-1 : ℚ)) = 0 := by
          apply max_eq_left
          nlinarith
        have hterm : convertAmount rates
            (a.currentPrice *
              max 0 (a.purchaseQuantity * (if a.transactionType = .SELL then -1 else 1)))
            a.currentPriceCurrency disp = 0 := by
          rw [if_pos h, hm, mul_zero, convertAmount_zero]
        have hfil : (a :: rest).filter (fun a => ¬ a.transactionType = .SELL) =
            rest.filter (fun a => ¬ a.transactionType = .SELL) := by
          simp [List.filter_cons, h]
        rw [List.map_cons, List.sum_cons, hterm, zero_add, ih hrest, hfil]
      · have hm : max 0 (a.purchaseQuantity * (1 : ℚ)) = a.purchaseQuantity := by
          rw [mul_one]
          exact max_eq_right ha
        have hterm : convertAmount rates
            (a.currentPrice *
              max 0 (a.purchaseQuantity * (if a.transactionType = .SELL then -1 else 1)))
            a.currentPriceCurrency disp =
            convertAmount rates (a.currentPrice * a.purchaseQuantity)
              a.currentPriceCurrency disp := by
          rw [if_neg h, hm]
        have hfil : (a :: rest).filter (fun a => ¬ a.transactionType = .SELL) =
            a :: rest.filter (fun a => ¬ a.transactionType = .SELL) := by
          simp [List.filter_cons, h]
        rw [List.map_cons, List.sum_cons, hterm, ih hrest, hfil, List.map_cons,
          List.sum_cons]
  simp only [metrics]
  simp only [foldl_add_sum, zero_add]
  exact key assets hq

/-- Witness for C3 amended: on `clampAssets` (BUY 2 then SELL 1 at current
price 10) the total current value is the BUY's 20. -/
theorem totalCurrentValue_counts_nonsell_only_witness :
    (metrics flatRates .USD clampAssets).totalCurrentValue =
      ((clampAssets.filter (fun a => ¬ a.transactionType = .SELL)).map
        (fun a => convertAmount flatRates (a.currentPrice * a.purchaseQuantity)
          a.currentPriceCurrency .USD)).sum := by
  refine totalCurrentValue_counts_nonsell_only flatRates .USD clampAssets ?_
  intro a ha
  fin_cases ha <;> norm_num [clampAssets, sampleTx]

/-- Inserting by date is a permutation of consing. -/
theorem insertByDate_perm (a : Asset) (l : List Asset) :
    (insertByDate a l).Perm (a :: l) := by
  induction l with
  | nil => simp [insertByDate]
  | cons b rest ih =>
    by_cases h : b.purchaseDate ≤ a.purchaseDate
    · simp only [insertByDate, if_pos h]
      exact (ih.cons b).trans (List.Perm.swap a b rest)
    · simp [insertByDate, if_neg h]

/-- The insertion-sort fold permutes the accumulator followed by the input. -/
theorem sortByDate_fold_perm :
    ∀ (l acc : List Asset),
      (l.foldl (fun acc a => insertByDate a acc) acc).Perm (acc ++ l) := by
  intro l
  induction l with
  | nil => intro acc; simp
  | cons a rest ih =>
    intro acc
    have h1 := ih (insertByDate a acc)
    have h2 : (insertByDate a acc ++ rest).Perm (acc ++ a :: rest) := by
      have := (insertByDate_perm a acc).append_right rest
      exact this.trans List.perm_middle.symm
    exact h1.trans h2

/-- Sorting by date permutes the input list. -/
theorem sortByDate_perm (l : List Asset) : (sortByDate l).Perm l := by
  simpa using sortByDate_fold_perm l []

theorem mem_sortByDate {a : Asset} {l : List Asset} :
    a ∈ sortByDate l ↔ a ∈ l :=
  (sortByDate_perm l).mem_iff

@[simp] theorem lotsQ_nil : lotsQ [] = 0 := rfl

@[simp] theorem lotsQ_cons (lot : Lot) (lots : List Lot) :
    lotsQ (lot :: lots) = lot.quantity + lotsQ lots := by
  simp [lotsQ]

@[simp] theorem lotsQ_append (l1 l2 : List Lot) :
    lotsQ (l1 ++ l2) = lotsQ l1 + lotsQ l2 := by
  simp [lotsQ]

theorem lotsQ_nonneg {lots : List Lot}
    (h : ∀ lot ∈ lots, 0 < lot.quantity) : 0 ≤ lotsQ lots := by
  induction lots with
  | nil => simp
  | cons lot rest ih =>
    have h1 := h lot (by simp)
    have h2 := ih (fun l hl => h l (by simp [hl]))
    simp only [lotsQ_cons]
    linarith

/-- The lot queue returned by the FIFO sell loop contains only lots of
positive remaining quantity whenever the input queue does. -/
theorem sellLoop_fst_pos (rates : Currency → ℚ) (disp : Currency)
    (sp : ℚ) (sc : Currency) :
    ∀ (lots : List Lot) (rem : ℚ),
      (∀ lot ∈ lots, 0 < lot.quantity) →
      ∀ lot ∈ (sellLoop rates disp sp sc lots rem).1, 0 < lot.quantity := by
  intro lots
  induction lots with
  | nil => intro rem _ lot hmem; simp [sellLoop] at hmem
  | cons l rest ih =>
    intro rem hpos lot hmem
    by_cases hr : rem ≤ 0
    · simp only [sellLoop, if_pos hr] at hmem
      exact hpos lot hmem
    · simp only [sellLoop, if_neg hr] at hmem
      by_cases hz : l.quantity - min l.quantity rem = 0
      · simp only [if_pos hz] at hmem
        exact ih (rem - min l.quantity rem)
          (fun x hx => hpos x (by simp [hx])) lot hmem
      · simp only [if_neg hz] at hmem
        rcases List.mem_cons.mp hmem with h1 | h1
        · have hle : min l.quantity rem ≤ l.quantity := min_le_left _ _
          have : 0 < l.quantity - min l.quantity rem := by
            rcases lt_or_eq_of_le (by linarith : (0:ℚ) ≤ l.quantity - min l.quantity rem) with h | h
            · exact h
            · exact absurd h.symm hz
          rw [h1]
          simpa using this
        · exact hpos lot (by simp [h1])

/-- C7: oversold sells are absorbed without failure.  If every open lot has
positive quantity and the sell quantity meets or exceeds the total open
quantity, the FIFO loop empties the queue, and any two such oversold
quantities produce identical results — the unmatched excess contributes no
further cost basis and no further realized gain.  (The loop is a total
function, so no error is possible.) -/
theorem sellLoop_oversell_stops_at_empty_queue (rates : Currency → ℚ)
    (disp : Currency) (sp : ℚ) (sc : Currency) (lots : List Lot) (r1 r2 : ℚ)
    (hpos : ∀ lot ∈ lots, 0 < lot.quantity)
    (h1 : lotsQ lots ≤ r1) (h2 : lotsQ lots ≤ r2) :
    sellLoop rates disp sp sc lots r1 = sellLoop rates disp sp sc lots r2 ∧
      (sellLoop rates disp sp sc lots r1).1 = [] := by
  induction lots generalizing r1 r2 with
  | nil => simp [sellLoop]
  | cons l rest ih =>
    have hl : 0 < l.quantity := hpos l (by simp)
    have hrest : ∀ lot ∈ rest, 0 < lot.quantity := fun x hx => hpos x (by simp [hx])
    have hq : 0 ≤ lotsQ rest := lotsQ_nonneg hrest
    simp only [lotsQ_cons] at h1 h2
    have hr1 : ¬ r1 ≤ 0 := by linarith
    have hr2 : ¬ r2 ≤ 0 := by linarith
    have hmin1 : min l.quantity r1 = l.quantity := min_eq_left (by linarith)
    have hmin2 : min l.quantity r2 = l.quantity := min_eq_left (by linarith)
    have := ih (r1 - l.quantity) (r2 - l.quantity) hrest
      (by linarith) (by linarith)
    simp only [sellLoop, if_neg hr1, if_neg hr2, hmin1, hmin2, sub_self,
      if_pos rfl]
    exact ⟨by rw [this.1], by simpa using this.2⟩

/-- C10: with strictly positive transaction quantities, every lot in the FIFO
queue keeps a strictly positive remaining quantity at every point of the
replay (after any prefix of the date-sorted transaction list), so the
remaining-cost-basis sum never includes an exhausted lot. -/
theorem lots_positive_throughout (rates : Currency → ℚ) (disp : Currency)
    (assets : List Asset) (sym : String)
    (hq : ∀ a ∈ assets, 0 < a.purchaseQuantity) (n : ℕ) :
    ∀ lot ∈ (((sortByDate (assets.filter (fun a => a.symbol = sym))).take n).foldl
      (processTransaction rates disp)
      { availableLots := [], realizedGains := 0 }).availableLots,
      0 < lot.quantity := by
  have key : ∀ (txs : List Asset) (s : FifoState),
      (∀ t ∈ txs, 0 < t.purchaseQuantity) →
      (∀ lot ∈ s.availableLots, 0 < lot.quantity) →
      ∀ lot ∈ (txs.foldl (processTransaction rates disp) s).availableLots,
        0 < lot.quantity := by
    intro txs
    induction txs with
    | nil => intro s _ hs lot hmem; exact hs lot hmem
    | cons t rest ih =>
      intro s ht hs
      refine ih (processTransaction rates disp s t)
        (fun x hx => ht x (by simp [hx])) ?_
      intro lot hmem
      have htq : 0 < t.purchaseQuantity := ht t (by simp)
      cases hty : t.transactionType with
      | BUY =>
        simp only [processTransaction, hty] at hmem
        rcases List.mem_append.mp hmem with h | h
        · exact hs lot h
        · simp at h; rw [h]; exact htq
      | EARN =>
        simp only [processTransaction, hty] at hmem
        rcases List.mem_append.mp hmem with h | h
        · exact hs lot h
        · simp at h; rw [h]; exact htq
      | SELL =>
        simp only [processTransaction, hty] at hmem
        exact sellLoop_fst_pos rates disp _ _ _ _ hs lot hmem
  refine key _ _ ?_ (by simp)
  intro t hmem
  exact hq t (List.mem_filter.mp (mem_sortByDate.mp (List.take_subset n _ hmem))).1

/-- Witness for C7: with one open lot of quantity 1, sell quantities 5 and 7
both exceed the open quantity, produce identical results, and empty the
queue. -/
theorem sellLoop_oversell_stops_at_empty_queue_witness :
    sellLoop flatRates .USD 30 .USD [{ quantity := 1, price := 10, currency := .USD }] 5 =
      sellLoop flatRates .USD 30 .USD [{ quantity := 1, price := 10, currency := .USD }] 7 ∧
    (sellLoop flatRates .USD 30 .USD [{ quantity := 1, price := 10, currency := .USD }] 5).1 = [] := by
  refine sellLoop_oversell_stops_at_empty_queue flatRates .USD 30 .USD _ 5 7 ?_ ?_ ?_
  · intro lot hmem
    simp only [List.mem_singleton] at hmem
    rw [hmem]
    norm_num
  · norm_num [lotsQ]
  · norm_num [lotsQ]

/-- Witness for C10: after the first transaction of the FIFO-ordering history
the queue holds the lot of quantity 1, whose quantity is positive. -/
theorem lots_positive_throughout_witness :
    0 < ({ quantity := 1, price := 10, currency := .USD } : Lot).quantity := by
  refine lots_positive_throughout flatRates .USD fifoAssets "BTC" ?_ 1 _ ?_
  · intro a ha
    fin_cases ha <;> norm_num [sampleTx, fifoAssets]
  · norm_num +decide [fifoAssets, sampleTx, sortByDate, insertByDate,
      processTransaction, convertAmount, flatRates]

/-- C9: write-time sell validation in `saveAsset`.  For a SELL of a valid
symbol: if the quantity exceeds the available balance (existing BUY and EARN
quantities minus existing SELL quantities for the symbol) the call returns an
error — the store is written only after validation, so it is unchanged —
otherwise exactly the one new record is appended. -/
theorem saveAsset_sell_validation (catalog : List String) (newId : String)
    (now : ℕ) (assets : List Asset) (data : AssetFormData)
    (hval : isValidCryptoSymbol catalog data.symbol = true)
    (hsell : data.transactionType = .SELL) :
    (sumBy (fun a => a.purchaseQuantity)
        (assets.filter (fun a => a.symbol = data.symbol ∧
          (a.transactionType = .BUY ∨ a.transactionType = .EARN))) -
      sumBy (fun a => a.purchaseQuantity)
        (assets.filter (fun a => a.symbol = data.symbol ∧
          a.transactionType = .SELL)) < data.purchaseQuantity →
      saveAsset catalog newId now assets data =
        Except.error "Cannot sell: insufficient quantity available") ∧
    (data.purchaseQuantity ≤
      sumBy (fun a => a.purchaseQuantity)
        (assets.filter (fun a => a.symbol = data.symbol ∧
          (a.transactionType = .BUY ∨ a.transactionType = .EARN))) -
      sumBy (fun a => a.purchaseQuantity)
        (assets.filter (fun a => a.symbol = data.symbol ∧
          a.transactionType = .SELL)) →
      saveAsset catalog newId now assets data =
        Except.ok (assets ++ [mkNewAsset newId now data])) := by
  constructor
  · intro h
    simp only [saveAsset, hval, hsell, if_true, reduceIte]
    rw [if_pos h]
  · intro h
    simp only [saveAsset, hval, hsell, if_true, reduceIte]
    rw [if_neg (not_lt.mpr h)]

/-- Witness for C9: selling 1 BTC against an empty store exceeds the
available balance of 0, so `saveAsset` errors out. -/
theorem saveAsset_sell_validation_witness :
    saveAsset DEFAULT_CRYPTO_SYMBOLS "id1" 0 [] sellForm =
      Except.error "Cannot sell: insufficient quantity available" := by
  refine (saveAsset_sell_validation DEFAULT_CRYPTO_SYMBOLS "id1" 0 [] sellForm
    ?_ rfl).1 ?_
  · rfl
  · norm_num [sumBy, sellForm]

theorem sellLoop_fst (rates : Currency → ℚ) (disp : Currency) (sp : ℚ)
    (sc : Currency) :
    ∀ (lots : List Lot) (rem : ℚ),
      (sellLoop rates disp sp sc lots rem).1 = consumeLots lots rem := by
  intro lots
  induction lots with
  | nil => intro rem; rfl
  | cons lot rest ih =>
    intro rem
    by_cases hr : rem ≤ 0
    · simp [sellLoop, consumeLots, hr]
    · by_cases hz : lot.quantity - min lot.quantity rem = 0
      · simp [sellLoop, consumeLots, hr, hz, ih]
      · simp [sellLoop, consumeLots, hr, hz]

theorem consumeLots_pos (lots : List Lot) (rem : ℚ)
    (h : ∀ lot ∈ lots, 0 < lot.quantity) :
    ∀ lot ∈ consumeLots lots rem, 0 < lot.quantity := by
  rw [← sellLoop_fst flatRates .USD 0 .USD]
  exact sellLoop_fst_pos flatRates .USD 0 .USD lots rem h

theorem consumeLots_lotsQ :
    ∀ (lots : List Lot) (rem : ℚ),
      (∀ lot ∈ lots, 0 < lot.quantity) → 0 ≤ rem → rem ≤ lotsQ lots →
      lotsQ (consumeLots lots rem) = lotsQ lots - rem := by
  intro lots
  induction lots with
  | nil =>
    intro rem _ h0 hle
    simp only [lotsQ_nil] at hle
    have : rem = 0 := le_antisymm hle h0
    simp [consumeLots, this]
  | cons lot rest ih =>
    intro rem hpos h0 hle
    by_cases hr : rem ≤ 0
    · have : rem = 0 := le_antisymm hr h0
      simp [consumeLots, hr, this]
    · simp only [lotsQ_cons] at hle
      by_cases hz : lot.quantity - min lot.quantity rem = 0
      · have hminq : min lot.quantity rem = lot.quantity := by linarith [sub_eq_zero.mp hz]
        have hql : lot.quantity ≤ rem := min_eq_left_iff.mp hminq
        have hrest := fun x hx => hpos x (List.mem_cons_of_mem lot hx)
        rw [consumeLots, if_neg hr, if_pos hz, hminq,
          ih (rem - lot.quantity) hrest (by linarith) (by linarith)]
        simp only [lotsQ_cons]
        ring
      · have hminr : min lot.quantity rem = rem := by
          rcases min_choice lot.quantity rem with h | h
          · exact absurd (by linarith [sub_eq_zero.mpr h.symm] : lot.quantity - min lot.quantity rem = 0) hz
          · exact h
        rw [consumeLots, if_neg hr, if_neg hz, hminr]
        simp only [lotsQ_cons]
        ring

theorem stepLots_pos (t : Asset) (lots : List Lot)
    (ht : 0 < t.purchaseQuantity) (h : ∀ lot ∈ lots, 0 < lot.quantity) :
    ∀ lot ∈ stepLots lots t, 0 < lot.quantity := by
  intro lot hmem
  cases hty : t.transactionType with
  | BUY =>
    rw [stepLots, hty] at hmem
    rcases List.mem_append.mp hmem with h1 | h1
    · exact h lot h1
    · simp at h1; rw [h1]; exact ht
  | EARN =>
    rw [stepLots, hty] at hmem
    rcases List.mem_append.mp hmem with h1 | h1
    · exact h lot h1
    · simp at h1; rw [h1]; exact ht
  | SELL =>
    rw [stepLots, hty] at hmem
    exact consumeLots_pos lots t.purchaseQuantity h lot hmem

/-- Replaying a transaction list with no oversold sell conserves quantity:
the final open-lot total is the initial total plus the signed quantity sum. -/
theorem foldl_stepLots_lotsQ :
    ∀ (l : List Asset) (lots : List Lot),
      (∀ a ∈ l, 0 < a.purchaseQuantity) →
      (∀ lot ∈ lots, 0 < lot.quantity) →
      noOversell lots l = true →
      lotsQ (l.foldl stepLots lots) = lotsQ lots + (l.map quantityChange).sum := by
  intro l
  induction l with
  | nil => intro lots _ _ _; simp
  | cons t rest ih =>
    intro lots hq hpos hno
    have ht := hq t (by simp)
    have hrest := fun x hx => hq x (List.mem_cons_of_mem t hx)
    have hpos' := stepLots_pos t lots ht hpos
    rw [noOversell, Bool.and_eq_true] at hno
    have hno' := hno.2
    rw [List.foldl_cons, List.map_cons, List.sum_cons,
      ih (stepLots lots t) hrest hpos' hno']
    cases hty : t.transactionType with
    | BUY =>
      rw [stepLots, hty]
      simp [lotsQ, quantityChange, hty, lotOf]
      ring
    | EARN =>
      rw [stepLots, hty]
      simp [lotsQ, quantityChange, hty, lotOf]
      ring
    | SELL =>
      have hsell : t.purchaseQuantity ≤ lotsQ lots := by
        have := hno.1
        rw [hty] at this
        exact of_decide_eq_true this
      rw [stepLots, hty,
        consumeLots_lotsQ lots t.purchaseQuantity hpos (le_of_lt ht) hsell]
      simp [quantityChange, hty]
      ring

theorem foldl_process_lots (rates : Currency → ℚ) (disp : Currency) :
    ∀ (l : List Asset) (s : FifoState),
      (l.foldl (processTransaction rates disp) s).availableLots =
        l.foldl stepLots s.availableLots := by
  intro l
  induction l with
  | nil => intro s; rfl
  | cons t rest ih =>
    intro s
    rw [List.foldl_cons, List.foldl_cons, ih]
    have : (processTransaction rates disp s t).availableLots =
        stepLots s.availableLots t := by
      cases hty : t.transactionType with
      | BUY => simp [processTransaction, stepLots, hty, lotOf]
      | EARN => simp [processTransaction, stepLots, hty, lotOf]
      | SELL => simp [processTransaction, stepLots, hty, sellLoop_fst]
    rw [this]

theorem lotsQ_eq_zero_iff_nil {lots : List Lot}
    (h : ∀ lot ∈ lots, 0 < lot.quantity) :
    lotsQ lots = 0 ↔ lots = [] := by
  constructor
  · intro hz
    cases lots with
    | nil => rfl
    | cons lot rest =>
      have h1 := h lot (by simp)
      have h2 := lotsQ_nonneg (fun x hx => h x (List.mem_cons_of_mem lot hx))
      rw [lotsQ_cons] at hz
      linarith
  · intro h; rw [h]; rfl

/-- C5 amended: the cross-component invariant holds for well-formed histories:
if every quantity is positive and no SELL (in date order) asks for more than
the open-lot total at its point, then the Position Aggregator's net quantity
equals the sum of the remaining FIFO lot quantities. -/
theorem net_quantity_eq_remaining_lots (rates : Currency → ℚ) (disp : Currency)
    (assets : List Asset) (p : Position)
    (hp : p ∈ netPositions rates assets)
    (hq : ∀ a ∈ assets, 0 < a.purchaseQuantity)
    (hno : noOversell []
      (sortByDate (assets.filter (fun a => a.symbol = p.symbol))) = true) :
    p.netQuantity = lotsQ (fifoFinalState rates disp assets p.symbol).availableLots := by
  obtain ⟨k, hk, rfl⟩ := mem_netPositions.mp hp
  obtain ⟨a0, l0, hf0⟩ : ∃ a0 l0, assets.filter (fun x => x.symbol = k) = a0 :: l0 := by
    cases hfl : assets.filter (fun x => x.symbol = k) with
    | nil =>
      exact absurd hfl ((filter_symbol_ne_nil assets k).mpr ((mem_firstKeys k assets).mp hk))
    | cons x t => exact ⟨x, t, rfl⟩
  have hsym : (posForKey rates assets k).symbol = k :=
    (posForKey_fields rates assets k a0 l0 hf0).1
  rw [hsym] at hno ⊢
  have hqf : ∀ a ∈ sortByDate (assets.filter (fun x => x.symbol = k)),
      0 < a.purchaseQuantity := fun a ha =>
    hq a (List.mem_filter.mp (mem_sortByDate.mp ha)).1
  have hlots : (fifoFinalState rates disp assets k).availableLots =
      (sortByDate (assets.filter (fun x => x.symbol = k))).foldl stepLots [] := by
    rw [fifoFinalState, foldl_process_lots]
  rw [hlots, foldl_stepLots_lotsQ _ [] hqf (by simp) hno]
  rw [posForKey_netQuantity rates assets k a0 l0 hf0]
  have hperm := (sortByDate_perm (assets.filter (fun x => x.symbol = k))).map quantityChange
  rw [lotsQ_nil, zero_add, hperm.sum_eq, hf0]

/-- Witness for C5 amended: on the FIFO-ordering history (net quantity 1
after selling 1 of 2 bought units) the position's net quantity equals the
remaining lot total. -/
theorem net_quantity_eq_remaining_lots_witness :
    (posForKey flatRates fifoAssets "BTC").netQuantity =
      lotsQ (fifoFinalState flatRates .USD fifoAssets
        (posForKey flatRates fifoAssets "BTC").symbol).availableLots := by
  refine net_quantity_eq_remaining_lots flatRates .USD fifoAssets _ ?_ ?_ ?_
  · refine mem_netPositions.mpr ⟨"BTC", ?_, rfl⟩
    norm_num +decide [firstKeys, fifoAssets, sampleTx]
  · intro a ha
    fin_cases ha <;> norm_num [fifoAssets, sampleTx]
  · have hs : (posForKey flatRates fifoAssets "BTC").symbol = "BTC" := by
      norm_num +decide [posForKey, fifoAssets, sampleTx, posFold, initPosition,
        updatePosition, quantityChange, convertAmount, flatRates]
    rw [hs]
    norm_num +decide [fifoAssets, sampleTx, sortByDate, insertByDate,
      noOversell, stepLots, lotOf, consumeLots, lotsQ]

theorem foldl_stepLots_pos :
    ∀ (l : List Asset) (lots : List Lot),
      (∀ a ∈ l, 0 < a.purchaseQuantity) →
      (∀ lot ∈ lots, 0 < lot.quantity) →
      ∀ lot ∈ l.foldl stepLots lots, 0 < lot.quantity := by
  intro l
  induction l with
  | nil => intro lots _ h lot hmem; exact h lot hmem
  | cons t rest ih =>
    intro lots hq hpos
    rw [List.foldl_cons]
    exact ih (stepLots lots t)
      (fun x hx => hq x (List.mem_cons_of_mem t hx))
      (stepLots_pos t lots (hq t (by simp)) hpos)

/-- C8 amended: for a well-formed history (positive quantities, no SELL
oversold in date order) of a symbol whose quantities net to exactly zero, the
FIFO queue ends empty (remaining cost basis 0), the unrealized gain is 0, and
whenever the percentage denominator — here the position's `totalBuyValue`,
since the net quantity is not positive — is zero, the percentage is 0 rather
than a division by zero. -/
theorem zero_net_position_empty_lots_zero_unrealized (rates : Currency → ℚ)
    (disp : Currency) (assets : List Asset) (p : Position)
    (hp : p ∈ netPositions rates assets)
    (hq : ∀ a ∈ assets, 0 < a.purchaseQuantity)
    (hno : noOversell []
      (sortByDate (assets.filter (fun a => a.symbol = p.symbol))) = true)
    (hzero : ((assets.filter (fun a => a.symbol = p.symbol)).map quantityChange).sum = 0) :
    (fifoFinalState rates disp assets p.symbol).availableLots = [] ∧
    (calculateGainLoss rates disp assets p).unrealizedGain = 0 ∧
    (p.totalBuyValue = 0 →
      (calculateGainLoss rates disp assets p).gainLossPercentage = 0) := by
  obtain ⟨k, hk, rfl⟩ := mem_netPositions.mp hp
  obtain ⟨a0, l0, hf0⟩ : ∃ a0 l0, assets.filter (fun x => x.symbol = k) = a0 :: l0 := by
    cases hfl : assets.filter (fun x => x.symbol = k) with
    | nil =>
      exact absurd hfl ((filter_symbol_ne_nil assets k).mpr ((mem_firstKeys k assets).mp hk))
    | cons x t => exact ⟨x, t, rfl⟩
  have hsym : (posForKey rates assets k).symbol = k :=
    (posForKey_fields rates assets k a0 l0 hf0).1
  rw [hsym] at hno hzero ⊢
  have hqf : ∀ a ∈ sortByDate (assets.filter (fun x => x.symbol = k)),
      0 < a.purchaseQuantity := fun a ha =>
    hq a (List.mem_filter.mp (mem_sortByDate.mp ha)).1
  have hlots_eq : (fifoFinalState rates disp assets k).availableLots =
      (sortByDate (assets.filter (fun x => x.symbol = k))).foldl stepLots [] := by
    rw [fifoFinalState, foldl_process_lots]
  have hsum : lotsQ ((sortByDate (assets.filter (fun x => x.symbol = k))).foldl
      stepLots []) = 0 := by
    rw [foldl_stepLots_lotsQ _ [] hqf (by simp) hno, lotsQ_nil, zero_add,
      ((sortByDate_perm (assets.filter (fun x => x.symbol = k))).map
        quantityChange).sum_eq]
    exact hzero
  have hposf : ∀ lot ∈ (sortByDate (assets.filter (fun x => x.symbol = k))).foldl
      stepLots [], 0 < lot.quantity :=
    foldl_stepLots_pos _ [] hqf (by simp)
  have hnil : (fifoFinalState rates disp assets k).availableLots = [] := by
    rw [hlots_eq]
    exact (lotsQ_eq_zero_iff_nil hposf).mp hsum
  have hnetq : (posForKey rates assets k).netQuantity = 0 := by
    rw [posForKey_netQuantity rates assets k a0 l0 hf0, ← hf0]
    exact hzero
  refine ⟨hnil, ?_, ?_⟩
  · simp [calculateGainLoss, hsym, hnil, hnetq]
  · intro hbv
    simp [calculateGainLoss, hsym, hnil, hnetq, hbv]

/-- Witness for C8 amended: BUY 1 then SELL 1 (in date order) nets to zero;
the queue ends empty and the unrealized gain is 0. -/
theorem zero_net_position_empty_lots_zero_unrealized_witness :
    (fifoFinalState flatRates .USD sellAssets
      (posForKey flatRates sellAssets "BTC").symbol).availableLots = [] ∧
    (calculateGainLoss flatRates .USD sellAssets
      (posForKey flatRates sellAssets "BTC")).unrealizedGain = 0 ∧
    ((posForKey flatRates sellAssets "BTC").totalBuyValue = 0 →
      (calculateGainLoss flatRates .USD sellAssets
        (posForKey flatRates sellAssets "BTC")).gainLossPercentage = 0) := by
  refine zero_net_position_empty_lots_zero_unrealized flatRates .USD sellAssets _
    ?_ ?_ ?_ ?_
  · refine mem_netPositions.mpr ⟨"BTC", ?_, rfl⟩
    norm_num +decide [firstKeys, sellAssets, sampleTx]
  · intro a ha
    fin_cases ha <;> norm_num [sellAssets, sampleTx]
  · have hs : (posForKey flatRates sellAssets "BTC").symbol = "BTC" := by
      norm_num +decide [posForKey, sellAssets, sampleTx, posFold, initPosition,
        updatePosition, quantityChange, convertAmount, flatRates]
    rw [hs]
    norm_num +decide [sellAssets, sampleTx, sortByDate, insertByDate,
      noOversell, stepLots, lotOf, consumeLots, lotsQ]
  · have hs : (posForKey flatRates sellAssets "BTC").symbol = "BTC" := by
      norm_num +decide [posForKey, sellAssets, sampleTx, posFold, initPosition,
        updatePosition, quantityChange, convertAmount, flatRates]
    rw [hs]
    norm_num +decide [sellAssets, sampleTx, quantityChange]

theorem foldl_process_noSell (rates : Currency → ℚ) (disp : Currency) :
    ∀ (l : List Asset) (s : FifoState),
      (∀ t ∈ l, ¬ t.transactionType = .SELL) →
      l.foldl (processTransaction rates disp) s =
        { availableLots := s.availableLots ++ l.map lotOf
          realizedGains := s.realizedGains } := by
  intro l
  induction l with
  | nil => intro s _; simp
  | cons t rest ih =>
    intro s hns
    have ht := hns t (by simp)
    have hstep : processTransaction rates disp s t =
        { availableLots := s.availableLots ++ [lotOf t]
          realizedGains := s.realizedGains } := by
      cases hty : t.transactionType with
      | BUY => simp [processTransaction, hty, lotOf]
      | EARN => simp [processTransaction, hty, lotOf]
      | SELL => exact absurd hty ht
    rw [List.foldl_cons, hstep, ih _ (fun x hx => hns x (List.mem_cons_of_mem t hx))]
    simp

/-- C6: for histories of one symbol consisting only of BUY transactions (with
nonzero quantities and nonzero exchange rates), `calculateGainLoss` yields a
realized gain of 0 and an unrealized gain of `currentValue - totalBuyValue`,
with `currentValue` the converted market value of the position's net quantity
and `totalBuyValue` the aggregator's buy total converted to the display
currency. -/
theorem only_buys_realized_zero_unrealized_value_minus_cost
    (rates : Currency → ℚ) (disp : Currency) (assets : List Asset) (p : Position)
    (hp : p ∈ netPositions rates assets)
    (hall : ∀ a ∈ assets, a.transactionType = .BUY)
    (hq : ∀ a ∈ assets, a.purchaseQuantity ≠ 0)
    (hr : ∀ c, rates c ≠ 0) :
    (calculateGainLoss rates disp assets p).realizedGains = 0 ∧
    (calculateGainLoss rates disp assets p).unrealizedGain =
      convertAmount rates (p.currentPrice * p.netQuantity)
        p.currentPriceCurrency disp -
      convertAmount rates p.totalBuyValue p.totalBuyCurrency disp := by
  obtain ⟨k, hk, rfl⟩ := mem_netPositions.mp hp
  obtain ⟨a0, l0, hf0⟩ : ∃ a0 l0, assets.filter (fun x => x.symbol = k) = a0 :: l0 := by
    cases hfl : assets.filter (fun x => x.symbol = k) with
    | nil =>
      exact absurd hfl ((filter_symbol_ne_nil assets k).mpr ((mem_firstKeys k assets).mp hk))
    | cons x t => exact ⟨x, t, rfl⟩
  have hsym : (posForKey rates assets k).symbol = k :=
    (posForKey_fields rates assets k a0 l0 hf0).1
  have hSmem : ∀ x ∈ sortByDate (assets.filter (fun y => y.symbol = k)),
      x ∈ assets := fun x hx =>
    (List.mem_filter.mp (mem_sortByDate.mp hx)).1
  have hnosell : ∀ t ∈ sortByDate (assets.filter (fun y => y.symbol = k)),
      ¬ t.transactionType = .SELL := by
    intro t ht hc
    rw [hall t (hSmem t ht)] at hc
    cases hc
  have hstate : fifoFinalState rates disp assets k =
      { availableLots :=
          (sortByDate (assets.filter (fun y => y.symbol = k))).map lotOf
        realizedGains := 0 } := by
    rw [fifoFinalState]
    rw [foldl_process_noSell rates disp _ _ hnosell]
    simp
  have hfmem : ∀ x ∈ assets.filter (fun y => y.symbol = k), x ∈ assets :=
    fun x hx => (List.mem_filter.mp hx).1
  have hrcb :
      ((sortByDate (assets.filter (fun y => y.symbol = k))).map lotOf).foldl
        (fun sum lot =>
          sum + convertAmount rates (lot.price * lot.quantity) lot.currency disp)
        0 =
      convertAmount rates (posForKey rates assets k).totalBuyValue
        (posForKey rates assets k).totalBuyCurrency disp := by
    simp only [foldl_add_sum, zero_add, List.map_map, Function.comp_def]
    have hpoint : ∀ x ∈ sortByDate (assets.filter (fun y => y.symbol = k)),
        convertAmount rates ((lotOf x).price * (lotOf x).quantity)
          (lotOf x).currency disp =
        convertAmount rates x.purchasePrice x.purchaseCurrency disp := by
      intro x hx
      have := hq x (hSmem x hx)
      simp [lotOf, div_mul_cancel₀ _ this]
    rw [List.map_congr_left hpoint,
      ((sortByDate_perm (assets.filter (fun y => y.symbol = k))).map
        (fun x => convertAmount rates x.purchasePrice x.purchaseCurrency disp)).sum_eq,
      hf0]
    have htbc : (posForKey rates assets k).totalBuyCurrency = a0.purchaseCurrency :=
      (posForKey_fields rates assets k a0 l0 hf0).2.1
    rw [htbc, posForKey_totalBuyValue rates assets k a0 l0 hf0,
      convertAmount_sum, List.map_map]
    refine (congrArg List.sum (List.map_congr_left ?_)).symm
    intro x hx
    have hx' : x ∈ assets := hfmem x (hf0 ▸ hx)
    simp only [Function.comp_apply, hall x hx', if_pos rfl]
    exact convertAmount_trans rates hr x.purchasePrice x.purchaseCurrency
      a0.purchaseCurrency disp
  constructor
  · simp [calculateGainLoss, hsym, hstate]
  · simp only [calculateGainLoss, hsym, hstate, hrcb]

/-- Witness for C6: two BUYs of one symbol: realized gain 0 and unrealized
gain equal to current value minus converted buy total. -/
theorem only_buys_realized_zero_unrealized_value_minus_cost_witness :
    (calculateGainLoss flatRates .USD [sampleTx "BTC" .BUY 1 10 7 1, sampleTx "BTC" .BUY 1 20 7 2]
      (posForKey flatRates [sampleTx "BTC" .BUY 1 10 7 1, sampleTx "BTC" .BUY 1 20 7 2] "BTC")).realizedGains = 0 ∧
    (calculateGainLoss flatRates .USD [sampleTx "BTC" .BUY 1 10 7 1, sampleTx "BTC" .BUY 1 20 7 2]
      (posForKey flatRates [sampleTx "BTC" .BUY 1 10 7 1, sampleTx "BTC" .BUY 1 20 7 2] "BTC")).unrealizedGain =
      convertAmount flatRates
        ((posForKey flatRates [sampleTx "BTC" .BUY 1 10 7 1, sampleTx "BTC" .BUY 1 20 7 2] "BTC").currentPrice *
          (posForKey flatRates [sampleTx "BTC" .BUY 1 10 7 1, sampleTx "BTC" .BUY 1 20 7 2] "BTC").netQuantity)
        (posForKey flatRates [sampleTx "BTC" .BUY 1 10 7 1, sampleTx "BTC" .BUY 1 20 7 2] "BTC").currentPriceCurrency .USD -
      convertAmount flatRates
        (posForKey flatRates [sampleTx "BTC" .BUY 1 10 7 1, sampleTx "BTC" .BUY 1 20 7 2] "BTC").totalBuyValue
        (posForKey flatRates [sampleTx "BTC" .BUY 1 10 7 1, sampleTx "BTC" .BUY 1 20 7 2] "BTC").totalBuyCurrency .USD := by
  refine only_buys_realized_zero_unrealized_value_minus_cost flatRates .USD _ _
    ?_ ?_ ?_ ?_
  · refine mem_netPositions.mpr ⟨"BTC", ?_, rfl⟩
    norm_num +decide [firstKeys, sampleTx]
  · intro a ha
    fin_cases ha <;> norm_num [sampleTx]
  · intro a ha
    fin_cases ha <;> norm_num [sampleTx]
  · intro c
    norm_num [flatRates]

theorem sum_map_sub {α : Type} (f g : α → ℚ) (l : List α) :
    (l.map (fun x => f x - g x)).sum = (l.map f).sum - (l.map g).sum := by
  induction l with
  | nil => simp
  | cons a rest ih => simp [ih]; ring

/-- Summing a function over each symbol-class of a partition by keys and then
over the keys equals summing over the whole list. -/
theorem sum_map_partition (f : Asset → ℚ) :
    ∀ (ks : List String) (l : List Asset), ks.Nodup →
      (∀ a ∈ l, a.symbol ∈ ks) →
      (ks.map (fun k => ((l.filter (fun a => a.symbol = k)).map f).sum)).sum =
        (l.map f).sum := by
  intro ks
  induction ks with
  | nil =>
    intro l _ hcov
    cases l with
    | nil => simp
    | cons a t => exact absurd (hcov a (by simp)) (by simp)
  | cons k ks ih =>
    intro l hnd hcov
    have hknot : k ∉ ks := (List.nodup_cons.mp hnd).1
    have hsplit := sum_map_filter_split (fun a => decide (a.symbol = k)) f l
    rw [List.map_cons, List.sum_cons]
    have hinner : (ks.map (fun k' => ((l.filter (fun a => a.symbol = k')).map f).sum)).sum =
        (ks.map (fun k' =>
          (((l.filter (fun a => !(decide (a.symbol = k)))).filter
            (fun a => a.symbol = k')).map f).sum)).sum := by
      refine congrArg List.sum (List.map_congr_left ?_)
      intro k' hk'
      have hne : k' ≠ k := fun he => hknot (he ▸ hk')
      refine congrArg List.sum (congrArg (List.map f) ?_)
      rw [List.filter_filter]
      refine (List.filter_congr ?_).symm
      intro a _
      by_cases hs : a.symbol = k'
      · have : ¬ a.symbol = k := fun he => hne (by rw [← hs, he])
        simp [hs, this, hne]
      · simp [hs]
    rw [hinner, ih (l.filter (fun a => !(decide (a.symbol = k))))
      (List.nodup_cons.mp hnd).2 ?_]
    · exact hsplit
    · intro a ha
      have hal := List.mem_filter.mp ha
      have := hcov a hal.1
      rcases List.mem_cons.mp this with h1 | h1
      · exfalso
        simp [h1] at hal
      · exact h1

/-- The position's buy total, converted to the display currency, is the sum
over the symbol's transactions of the BUY prices each converted directly to
the display currency (valid whenever all rates are nonzero). -/
theorem posForKey_totalBuyValue_disp (rates : Currency → ℚ)
    (hr : ∀ c, rates c ≠ 0) (disp : Currency) (assets : List Asset) (k : String)
    (a0 : Asset) (l0 : List Asset)
    (hf0 : assets.filter (fun x => x.symbol = k) = a0 :: l0) :
    convertAmount rates (posForKey rates assets k).totalBuyValue
      (posForKey rates assets k).totalBuyCurrency disp =
    ((assets.filter (fun x => x.symbol = k)).map (buyCostDisp rates disp)).sum := by
  have htbc : (posForKey rates assets k).totalBuyCurrency = a0.purchaseCurrency :=
    (posForKey_fields rates assets k a0 l0 hf0).2.1
  rw [htbc, posForKey_totalBuyValue rates assets k a0 l0 hf0,
    convertAmount_sum, List.map_map, hf0]
  refine congrArg List.sum (List.map_congr_left ?_)
  intro x _
  simp only [Function.comp_apply, buyCostDisp]
  by_cases hb : x.transactionType = .BUY
  · rw [if_pos hb, if_pos hb]
    exact convertAmount_trans rates hr x.purchasePrice x.purchaseCurrency
      a0.purchaseCurrency disp
  · rw [if_neg hb, if_neg hb, convertAmount_zero]

/-- For a history with no SELL (EARNs priced at zero), per-symbol uniform
current price data, positive quantities and nonzero rates, the FIFO total
gain of a symbol's position is the symbol's summed current value minus its
summed converted buy cost. -/
theorem totalGain_noSell_eq (rates : Currency → ℚ) (disp : Currency)
    (assets : List Asset) (k : String) (a0 : Asset) (l0 : List Asset)
    (hf0 : assets.filter (fun x => x.symbol = k) = a0 :: l0)
    (hq : ∀ a ∈ assets, 0 < a.purchaseQuantity)
    (hr : ∀ c, rates c ≠ 0)
    (hns : ∀ a ∈ assets, a.transactionType = .BUY ∨
      (a.transactionType = .EARN ∧ a.purchasePrice = 0))
    (huni : ∀ a ∈ assets, ∀ b ∈ assets, a.symbol = b.symbol →
      a.currentPrice = b.currentPrice ∧
        a.currentPriceCurrency = b.currentPriceCurrency) :
    (calculateGainLoss rates disp assets (posForKey rates assets k)).totalGain =
      ((assets.filter (fun x => x.symbol = k)).map (currentValueDisp rates disp)).sum -
      ((assets.filter (fun x => x.symbol = k)).map (buyCostDisp rates disp)).sum := by
  have hfields := posForKey_fields rates assets k a0 l0 hf0
  have hsym := hfields.1
  have hcp := hfields.2.2.1
  have hcpc := hfields.2.2.2
  have hfmem : ∀ x ∈ assets.filter (fun y => y.symbol = k), x ∈ assets :=
    fun x hx => (List.mem_filter.mp hx).1
  have hSmem : ∀ x ∈ sortByDate (assets.filter (fun y => y.symbol = k)),
      x ∈ assets := fun x hx => hfmem x (mem_sortByDate.mp hx)
  have hclmem : ∀ x ∈ a0 :: l0, x ∈ assets := fun x hx => hfmem x (hf0 ▸ hx)
  have hclsym : ∀ x ∈ a0 :: l0, x.symbol = k := by
    intro x hx
    have : x ∈ assets.filter (fun y => y.symbol = k) := hf0 ▸ hx
    simpa using (List.mem_filter.mp this).2
  have hnosell : ∀ t ∈ sortByDate (assets.filter (fun y => y.symbol = k)),
      ¬ t.transactionType = .SELL := by
    intro t ht hc
    rcases hns t (hSmem t ht) with h | ⟨h, _⟩ <;> rw [h] at hc <;> cases hc
  have hstate : fifoFinalState rates disp assets k =
      { availableLots :=
          (sortByDate (assets.filter (fun y => y.symbol = k))).map lotOf
        realizedGains := 0 } := by
    rw [fifoFinalState]
    rw [foldl_process_noSell rates disp _ _ hnosell]
    simp
  have hnetq : (posForKey rates assets k).netQuantity =
      ((a0 :: l0).map (fun x => x.purchaseQuantity)).sum := by
    rw [posForKey_netQuantity rates assets k a0 l0 hf0]
    refine congrArg List.sum (List.map_congr_left ?_)
    intro x hx
    rcases hns x (hclmem x hx) with h | ⟨h, _⟩ <;> simp [quantityChange, h]
  have hcv : convertAmount rates
      ((posForKey rates assets k).currentPrice * (posForKey rates assets k).netQuantity)
      (posForKey rates assets k).currentPriceCurrency disp =
      ((a0 :: l0).map (currentValueDisp rates disp)).sum := by
    rw [hcp, hcpc, hnetq, ← List.sum_map_mul_left, convertAmount_sum, List.map_map]
    refine congrArg List.sum (List.map_congr_left ?_)
    intro x hx
    have ha0 : a0 ∈ a0 :: l0 := by simp
    obtain ⟨hcp', hcpc'⟩ := huni a0 (hclmem a0 ha0) x (hclmem x hx)
      (by rw [hclsym a0 ha0, hclsym x hx])
    simp only [Function.comp_apply, currentValueDisp, hcp', hcpc']
  have hrcb :
      ((sortByDate (assets.filter (fun y => y.symbol = k))).map lotOf).foldl
        (fun sum lot =>
          sum + convertAmount rates (lot.price * lot.quantity) lot.currency disp)
        0 = ((a0 :: l0).map (buyCostDisp rates disp)).sum := by
    simp only [foldl_add_sum, zero_add, List.map_map, Function.comp_def]
    have hpoint : ∀ x ∈ sortByDate (assets.filter (fun y => y.symbol = k)),
        convertAmount rates ((lotOf x).price * (lotOf x).quantity)
          (lotOf x).currency disp = buyCostDisp rates disp x := by
      intro x hx
      have hx' := hSmem x hx
      have hq' := hq x hx'
      rcases hns x hx' with h | ⟨h, hpz⟩
      · simp [lotOf, div_mul_cancel₀ _ (ne_of_gt hq'), buyCostDisp, h]
      · simp [lotOf, hpz, buyCostDisp, h]
    rw [List.map_congr_left hpoint,
      ((sortByDate_perm (assets.filter (fun y => y.symbol = k))).map
        (buyCostDisp rates disp)).sum_eq, hf0]
  simp only [calculateGainLoss, hsym, hstate, zero_add]
  rw [hcv, hrcb, hf0]

/-- C2 amended: `totalProfit` is computed as `totalCurrentValue -
totalBuyValue`; this equals the sum of per-position FIFO total gains for
histories with no SELL transaction (EARNs priced at zero), per-symbol uniform
current price data, positive quantities and nonzero exchange rates; with a
priced SELL the two quantities differ (see the counterexample). -/
theorem totalProfit_eq_sum_fifo_gains_when_no_sells (rates : Currency → ℚ)
    (disp : Currency) (assets : List Asset)
    (hq : ∀ a ∈ assets, 0 < a.purchaseQuantity)
    (hr : ∀ c, rates c ≠ 0)
    (hns : ∀ a ∈ assets, a.transactionType = .BUY ∨
      (a.transactionType = .EARN ∧ a.purchasePrice = 0))
    (huni : ∀ a ∈ assets, ∀ b ∈ assets, a.symbol = b.symbol →
      a.currentPrice = b.currentPrice ∧
        a.currentPriceCurrency = b.currentPriceCurrency) :
    (metrics rates disp assets).totalProfit =
      ((netPositions rates assets).map
        (fun p => (calculateGainLoss rates disp assets p).totalGain)).sum := by
  have hcov : ∀ a ∈ assets, a.symbol ∈ firstKeys assets := fun a ha =>
    (mem_firstKeys _ _).mpr (List.mem_map.mpr ⟨a, ha, rfl⟩)
  have hTCV : (metrics rates disp assets).totalCurrentValue =
      (assets.map (currentValueDisp rates disp)).sum := by
    simp only [metrics]
    simp only [foldl_add_sum, zero_add]
    refine congrArg List.sum (List.map_congr_left ?_)
    intro a ha
    have hq' := hq a ha
    have hmax : max 0 (a.purchaseQuantity *
        (if a.transactionType = .SELL then -1 else 1)) = a.purchaseQuantity := by
      have hnsa : ¬ a.transactionType = .SELL := by
        intro hc
        rcases hns a ha with h | ⟨h, _⟩ <;> rw [h] at hc <;> cases hc
      rw [if_neg hnsa, mul_one]
      exact max_eq_right (le_of_lt hq')
    rw [hmax]
    rfl
  have hTBV : (metrics rates disp assets).totalBuyValue =
      (assets.map (buyCostDisp rates disp)).sum := by
    simp only [metrics]
    simp only [foldl_add_sum, zero_add]
    rw [netPositions_eq, List.map_map]
    have hpt : ∀ k ∈ firstKeys assets,
        ((fun p => convertAmount rates p.totalBuyValue p.totalBuyCurrency disp) ∘
          posForKey rates assets) k =
        ((assets.filter (fun a => a.symbol = k)).map (buyCostDisp rates disp)).sum := by
      intro k hk
      obtain ⟨a0, l0, hf0⟩ : ∃ a0 l0, assets.filter (fun x => x.symbol = k) = a0 :: l0 := by
        cases hfl : assets.filter (fun x => x.symbol = k) with
        | nil =>
          exact absurd hfl
            ((filter_symbol_ne_nil assets k).mpr ((mem_firstKeys k assets).mp hk))
        | cons x t => exact ⟨x, t, rfl⟩
      exact posForKey_totalBuyValue_disp rates hr disp assets k a0 l0 hf0
    rw [List.map_congr_left hpt]
    exact sum_map_partition (buyCostDisp rates disp) (firstKeys assets) assets
      (firstKeys_nodup assets) hcov
  have hRHS : ((netPositions rates assets).map
      (fun p => (calculateGainLoss rates disp assets p).totalGain)).sum =
      (assets.map (currentValueDisp rates disp)).sum -
        (assets.map (buyCostDisp rates disp)).sum := by
    rw [netPositions_eq, List.map_map]
    have hpt : ∀ k ∈ firstKeys assets,
        ((fun p => (calculateGainLoss rates disp assets p).totalGain) ∘
          posForKey rates assets) k =
        ((assets.filter (fun a => a.symbol = k)).map (currentValueDisp rates disp)).sum -
          ((assets.filter (fun a => a.symbol = k)).map (buyCostDisp rates disp)).sum := by
      intro k hk
      obtain ⟨a0, l0, hf0⟩ : ∃ a0 l0, assets.filter (fun x => x.symbol = k) = a0 :: l0 := by
        cases hfl : assets.filter (fun x => x.symbol = k) with
        | nil =>
          exact absurd hfl
            ((filter_symbol_ne_nil assets k).mpr ((mem_firstKeys k assets).mp hk))
        | cons x t => exact ⟨x, t, rfl⟩
      exact totalGain_noSell_eq rates disp assets k a0 l0 hf0 hq hr hns huni
    rw [List.map_congr_left hpt, sum_map_sub,
      sum_map_partition (currentValueDisp rates disp) (firstKeys assets) assets
        (firstKeys_nodup assets) hcov,
      sum_map_partition (buyCostDisp rates disp) (firstKeys assets) assets
        (firstKeys_nodup assets) hcov]
  have hTP : (metrics rates disp assets).totalProfit =
      (metrics rates disp assets).totalCurrentValue -
        (metrics rates disp assets).totalBuyValue := by
    simp only [metrics]
  rw [hTP, hTCV, hTBV, hRHS]

/-- Witness for C2 amended: two BUYs of one symbol at uniform current price 7:
the portfolio profit equals the summed FIFO total gains. -/
theorem totalProfit_eq_sum_fifo_gains_when_no_sells_witness :
    (metrics flatRates .USD
        [sampleTx "BTC" .BUY 1 10 7 1, sampleTx "BTC" .BUY 1 20 7 2]).totalProfit =
      ((netPositions flatRates
          [sampleTx "BTC" .BUY 1 10 7 1, sampleTx "BTC" .BUY 1 20 7 2]).map
        (fun p => (calculateGainLoss flatRates .USD
          [sampleTx "BTC" .BUY 1 10 7 1, sampleTx "BTC" .BUY 1 20 7 2] p).totalGain)).sum := by
  refine totalProfit_eq_sum_fifo_gains_when_no_sells flatRates .USD _ ?_ ?_ ?_ ?_
  · intro a ha
    fin_cases ha <;> norm_num [sampleTx]
  · intro c
    norm_num [flatRates]
  · intro a ha
    fin_cases ha <;> norm_num [sampleTx]
  · intro a ha b hb hsame
    fin_cases ha <;> fin_cases hb <;> norm_num [sampleTx]

/-- C8 counterexample: SELL 1 on day 1 then BUY 1 @ 10 on day 2 nets to
exactly zero, yet the oversold SELL consumed nothing, the BUY's lot remains in
the queue, and `unrealizedGain = 0 - 10 = -10 ≠ 0`. -/
theorem zero_net_position_nonzero_unrealized_gain :
    (netPositions flatRates sellBeforeBuyAssets).map
      (fun p => (p.netQuantity,
        (calculateGainLoss flatRates .USD sellBeforeBuyAssets p).unrealizedGain)) =
      [(0, -10)] := by
  norm_num +decide [sellBeforeBuyAssets, sampleTx, flatRates, calculateGainLoss,
    fifoFinalState, sortByDate, insertByDate, processTransaction, sellLoop,
    convertAmount, netPositions, netPositionsMap, mapGet, mapSet, initPosition,
    updatePosition, quantityChange]

end Mently
